import Mathlib

set_option maxRecDepth 10000

/-!
Verification of the tpuproxy core codecs.

This file shallowly embeds two Go source files of the repository:

* `pkg/base58/base58.go` — the table-driven base58 codec for 32- and
  64-byte values (`Encode32`, `Encode64`, `Decode32`, `Decode64`);
* the `sealevel` params codec (`Params.Serialize`, `Params.Update`).

Byte strings are `List Nat` with entries below 256; Go machine integers
become `Nat` with an explicit `% 2 ^ 64` (respectively `% 2 ^ 32`,
`% 256`) wherever the Go code can wrap.  Functions that can fault at
runtime (a slice index out of range) return `Option`, `none` being the
fault.  Each definition mirrors one Go function; comments note the few
places where a Go loop is rendered by an equivalent list traversal.
-/

/-! ## Generic big-endian digit machinery

The Go codec manipulates fixed-size arrays of digits in bases 256, 2^32,
58 and 58^5.  The following reusable functions express digit lists and
their values; all four bases are instances.
-/

/-- Big-endian value of a digit list in base `b` (head most significant). -/
def ofDigitsBE (b : Nat) (ds : List Nat) : Nat :=
  ds.foldl (fun acc d => acc * b + d) 0

/-- Fixed-length big-endian digit expansion of `n` in base `b`. -/
def toDigitsBE (b : Nat) : Nat → Nat → List Nat
  | 0, _ => []
  | l + 1, n => n / b ^ l % b :: toDigitsBE b l n

/-- Number of leading zero entries of a list; this is what the Go
leading-zero counting loops compute on a fixed-size array. -/
def lzCount : List Nat → Nat
  | [] => 0
  | d :: ds => if d = 0 then lzCount ds + 1 else 0

/-- The right-to-left carry pass of the Go codec: for `i` from the last
index down to 1, `a[i-1] += a[i] / d; a[i] %= d`, every addition wrapping
at `m = 2 ^ 64`.  The recursion processes the tail first (the loop visits
high indices first), then lets the head absorb the final carry, exactly
as the loop does. -/
def carryNorm (d m : Nat) : List Nat → List Nat
  | [] => []
  | [x] => [x]
  | x :: y :: ys =>
    let z := (carryNorm d m (y :: ys)).headD 0
    (x + z / d) % m :: z % d :: (carryNorm d m (y :: ys)).tail

/-! ## The base58 codec (pkg/base58/base58.go)

Tables and constants are transcribed from the Go source.  Character
strings are lists of byte values; 49 is the byte of the character one.
-/
/-- Byte values of the base58 alphabet string (Go `alphabet`). -/
def alphabetL : List Nat := [49, 50, 51, 52, 53, 54, 55, 56, 57, 65, 66, 67, 68, 69, 70, 71, 72, 74, 75, 76, 77, 78, 80, 81, 82, 83, 84, 85, 86, 87, 88, 89, 90, 97, 98, 99, 100, 101, 102, 103, 104, 105, 106, 107, 109, 110, 111, 112, 113, 114, 115, 116, 117, 118, 119, 120, 121, 122]

/-- Go `inverseLUT`: maps (character value minus 49) to a base58 digit, 255 marking an invalid character. -/
def inverseLUTL : List Nat := [0, 1, 2, 3, 4, 5, 6, 7, 8, 255, 255, 255, 255, 255, 255, 255, 9, 10, 11, 12, 13, 14, 15, 16, 255, 17, 18, 19, 20, 21, 255, 22, 23, 24, 25, 26, 27, 28, 29, 30, 31, 32, 255, 255, 255, 255, 255, 255, 33, 34, 35, 36, 37, 38, 39, 40, 41, 42, 43, 255, 44, 45, 46, 47, 48, 49, 50, 51, 52, 53, 54, 55, 56, 57, 255]

/-- Go `encTable32`. -/
def encTable32L : List (List Nat) := [
  [513735, 77223048, 437087610, 300156666, 605448490, 214625350, 141436834, 379377856],
  [0, 78508, 646269101, 118408823, 91512303, 209184527, 413102373, 153715680],
  [0, 0, 11997, 486083817, 3737691, 294005210, 247894721, 289024608],
  [0, 0, 0, 1833, 324463681, 385795061, 551597588, 21339008],
  [0, 0, 0, 0, 280, 127692781, 389432875, 357132832],
  [0, 0, 0, 0, 0, 42, 537767569, 410450016],
  [0, 0, 0, 0, 0, 0, 6, 356826688],
  [0, 0, 0, 0, 0, 0, 0, 1]]

/-- Go `decTable32`. -/
def decTable32L : List (List Nat) := [
  [1277, 2650397687, 3801011509, 2074386530, 3248244966, 687255411, 2959155456, 0],
  [0, 8360, 1184754854, 3047609191, 3418394749, 132556120, 1199103528, 0],
  [0, 0, 54706, 2996985344, 1834629191, 3964963911, 485140318, 1073741824],
  [0, 0, 0, 357981, 1476998812, 3337178590, 1483338760, 4194304000],
  [0, 0, 0, 0, 2342503, 3052466824, 2595180627, 17825792],
  [0, 0, 0, 0, 0, 15328518, 1933902296, 4063920128],
  [0, 0, 0, 0, 0, 0, 100304420, 3355157504],
  [0, 0, 0, 0, 0, 0, 0, 656356768],
  [0, 0, 0, 0, 0, 0, 0, 1]]

/-- Go `encTable64`. -/
def encTable64L : List (List Nat) := [
  [2631, 149457141, 577092685, 632289089, 81912456, 221591423, 502967496, 403284731, 377738089, 492128779, 746799, 366351977, 190199623, 38066284, 526403762, 650603058, 454901440],
  [0, 402, 68350375, 30641941, 266024478, 208884256, 571208415, 337765723, 215140626, 129419325, 480359048, 398051646, 635841659, 214020719, 136986618, 626219915, 49699360],
  [0, 0, 61, 295059608, 141201404, 517024870, 239296485, 527697587, 212906911, 453637228, 467589845, 144614682, 45134568, 184514320, 644355351, 104784612, 308625792],
  [0, 0, 0, 9, 256449755, 500124311, 479690581, 372802935, 413254725, 487877412, 520263169, 176791855, 78190744, 291820402, 74998585, 496097732, 59100544],
  [0, 0, 0, 0, 1, 285573662, 455976778, 379818553, 100001224, 448949512, 109507367, 117185012, 347328982, 522665809, 36908802, 577276849, 64504928],
  [0, 0, 0, 0, 0, 0, 143945778, 651677945, 281429047, 535878743, 264290972, 526964023, 199595821, 597442702, 499113091, 424550935, 458949280],
  [0, 0, 0, 0, 0, 0, 0, 21997789, 294590275, 148640294, 595017589, 210481832, 404203788, 574729546, 160126051, 430102516, 44963712],
  [0, 0, 0, 0, 0, 0, 0, 0, 3361701, 325788598, 30977630, 513969330, 194569730, 164019635, 136596846, 626087230, 503769920],
  [0, 0, 0, 0, 0, 0, 0, 0, 0, 513735, 77223048, 437087610, 300156666, 605448490, 214625350, 141436834, 379377856],
  [0, 0, 0, 0, 0, 0, 0, 0, 0, 0, 78508, 646269101, 118408823, 91512303, 209184527, 413102373, 153715680],
  [0, 0, 0, 0, 0, 0, 0, 0, 0, 0, 0, 11997, 486083817, 3737691, 294005210, 247894721, 289024608],
  [0, 0, 0, 0, 0, 0, 0, 0, 0, 0, 0, 0, 1833, 324463681, 385795061, 551597588, 21339008],
  [0, 0, 0, 0, 0, 0, 0, 0, 0, 0, 0, 0, 0, 280, 127692781, 389432875, 357132832],
  [0, 0, 0, 0, 0, 0, 0, 0, 0, 0, 0, 0, 0, 0, 42, 537767569, 410450016],
  [0, 0, 0, 0, 0, 0, 0, 0, 0, 0, 0, 0, 0, 0, 0, 6, 356826688],
  [0, 0, 0, 0, 0, 0, 0, 0, 0, 0, 0, 0, 0, 0, 0, 0, 1]]

/-- Go `decTable64`. -/
def decTable64L : List (List Nat) := [
  [249448, 3719864065, 173911550, 4021557284, 3115810883, 2498525019, 1035889824, 627529458, 3840888383, 3728167192, 2901437456, 3863405776, 1540739182, 1570766848, 0, 0],
  [0, 1632305, 1882780341, 4128706713, 1023671068, 2618421812, 2005415586, 1062993857, 3577221846, 3960476767, 1695615427, 2597060712, 669472826, 104923136, 0, 0],
  [0, 0, 10681231, 1422956801, 2406345166, 4058671871, 2143913881, 4169135587, 2414104418, 2549553452, 997594232, 713340517, 2290070198, 1103833088, 0, 0],
  [0, 0, 0, 69894212, 1038812943, 1785020643, 1285619000, 2301468615, 3492037905, 314610629, 2761740102, 3410618104, 1699516363, 910779968, 0, 0],
  [0, 0, 0, 0, 457363084, 927569770, 3976106370, 1389513021, 2107865525, 3716679421, 1828091393, 2088408376, 439156799, 2579227194, 0, 0],
  [0, 0, 0, 0, 0, 2992822783, 383623235, 3862831115, 112778334, 339767049, 1447250220, 486575164, 3495303162, 2209946163, 268435456, 0],
  [0, 0, 0, 0, 0, 4, 2404108010, 2962826229, 3998086794, 1893006839, 2266258239, 1429430446, 307953032, 2361423716, 176160768, 0],
  [0, 0, 0, 0, 0, 0, 29, 3596590989, 3044036677, 1332209423, 1014420882, 868688145, 4264082837, 3688771808, 2485387264, 0],
  [0, 0, 0, 0, 0, 0, 0, 195, 1054003707, 3711696540, 582574436, 3549229270, 1088536814, 2338440092, 1468637184, 0],
  [0, 0, 0, 0, 0, 0, 0, 0, 1277, 2650397687, 3801011509, 2074386530, 3248244966, 687255411, 2959155456, 0],
  [0, 0, 0, 0, 0, 0, 0, 0, 0, 8360, 1184754854, 3047609191, 3418394749, 132556120, 1199103528, 0],
  [0, 0, 0, 0, 0, 0, 0, 0, 0, 0, 54706, 2996985344, 1834629191, 3964963911, 485140318, 1073741824],
  [0, 0, 0, 0, 0, 0, 0, 0, 0, 0, 0, 357981, 1476998812, 3337178590, 1483338760, 4194304000],
  [0, 0, 0, 0, 0, 0, 0, 0, 0, 0, 0, 0, 2342503, 3052466824, 2595180627, 17825792],
  [0, 0, 0, 0, 0, 0, 0, 0, 0, 0, 0, 0, 0, 15328518, 1933902296, 4063920128],
  [0, 0, 0, 0, 0, 0, 0, 0, 0, 0, 0, 0, 0, 0, 100304420, 3355157504],
  [0, 0, 0, 0, 0, 0, 0, 0, 0, 0, 0, 0, 0, 0, 0, 656356768],
  [0, 0, 0, 0, 0, 0, 0, 0, 0, 0, 0, 0, 0, 0, 0, 1]]

/-- Go `r1Div = 58^5`. -/
def r1Div : Nat := 656356768

/-- Go `binary.BigEndian.Uint32` of four bytes. -/
def beUint32 (b0 b1 b2 b3 : Nat) : Nat := ((b0 * 256 + b1) * 256 + b2) * 256 + b3

/-- The limb extraction loop shared by `Encode32` and `Encode64`:
`limbs[i] = binary.BigEndian.Uint32(in[4*i:])`. -/
def limbsOf (inb : List Nat) (n : Nat) : List Nat :=
  (List.range n).map fun i =>
    beUint32 (inb.getD (4 * i) 0) (inb.getD (4 * i + 1) 0)
      (inb.getD (4 * i + 2) 0) (inb.getD (4 * i + 3) 0)

/-- Entry `tbl[i][j]` of a two-dimensional table. -/
def tblAt (t : List (List Nat)) (i j : Nat) : Nat := (t.getD i []).getD j 0

/-- One cell of the multiply-accumulate loops: the Go code runs
`intermediate[j+1] += uint64(limbs[i]) * uint64(table[i][j])` over rows
`lo ≤ i < hi`; cell `j+1` therefore accumulates the sum below.  Each
product of two `uint32` values is below `2 ^ 64`, and a chain of wrapping
additions equals a single final `% 2 ^ 64`, so the cell is that sum
reduced once. -/
def macCell (limbs : List Nat) (t : List (List Nat)) (lo hi j : Nat) : Nat :=
  (((List.range (hi - lo)).map fun k => limbs.getD (lo + k) 0 * tblAt t (lo + k) j).sum) % 2 ^ 64

/-- The `intermediate` array of Go `Encode32` after its double loop:
entry 0 stays zero, entry `j ≥ 1` holds the accumulated column `j - 1`. -/
def inter32MAC (limbs : List Nat) : List Nat :=
  (List.range 9).map fun j => if j = 0 then 0 else macCell limbs encTable32L 0 8 (j - 1)

/-- The digit-expansion loop shared by the Go encoders: each intermediate
entry `v` is cast to `uint32` and expanded into five base58 digits
`v / 11316496, v / 195112 % 58, v / 3364 % 58, v / 58 % 58, v % 58`
written at stride 5. -/
def rawDigits (inter : List Nat) : List Nat :=
  inter.flatMap fun v0 =>
    let v := v0 % 2 ^ 32
    [v / 11316496, v / 195112 % 58, v / 3364 % 58, v / 58 % 58, v % 58]

/-- The `rawBase58` array computed by Go `Encode32` (after carry
normalization of the intermediate array). -/
def raw58of32 (inb : List Nat) : List Nat :=
  rawDigits (carryNorm r1Div (2 ^ 64) (inter32MAC (limbsOf inb 8)))

/-- Go `Encode32`: the written output characters `out[:outLen]`.  The Go
subtraction `skip := rawLeading0s - inLeading0s` is on unsigned words; it
never wraps because `rawLeading0s ≥ inLeading0s` for byte inputs (proved
below as `raw_lz_ge32`), so the truncated Nat subtraction agrees. -/
def encode32 (inb : List Nat) : List Nat :=
  let raw := raw58of32 inb
  let skip := lzCount raw - lzCount inb
  (List.range (45 - skip)).map fun i => alphabetL.getD (raw.getD (i + skip) 0) 0

/-- The `intermediate` array of Go `Encode64` after the first eight rows
of the multiply-accumulate loop. -/
def inter64MACa (limbs : List Nat) : List Nat :=
  (List.range 18).map fun j => if j = 0 then 0 else macCell limbs encTable64L 0 8 (j - 1)

/-- The mini-reduction of Go `Encode64`:
`intermediate[15] += intermediate[16] / 58^5; intermediate[16] %= 58^5`. -/
def miniRed64 (l : List Nat) : List Nat :=
  (List.range 18).map fun j =>
    if j = 15 then (l.getD 15 0 + l.getD 16 0 / r1Div) % 2 ^ 64
    else if j = 16 then l.getD 16 0 % r1Div
    else l.getD j 0

/-- The `intermediate` array of Go `Encode64` after the remaining rows
8..15 of the multiply-accumulate loop. -/
def inter64MAC (limbs : List Nat) : List Nat :=
  let a := miniRed64 (inter64MACa limbs)
  (List.range 18).map fun j =>
    if j = 0 then a.getD 0 0 else (a.getD j 0 + macCell limbs encTable64L 8 16 (j - 1)) % 2 ^ 64

/-- The `rawBase58` array computed by Go `Encode64`. -/
def raw58of64 (inb : List Nat) : List Nat :=
  rawDigits (carryNorm r1Div (2 ^ 64) (inter64MAC (limbsOf inb 16)))

/-- Go `Encode64`: the written output characters `out[:outLen]`. -/
def encode64 (inb : List Nat) : List Nat :=
  let raw := raw58of64 inb
  let skip := lzCount raw - lzCount inb
  (List.range (90 - skip)).map fun i => alphabetL.getD (raw.getD (i + skip) 0) 0

/-- The inverse-table value used by the Go decoders once characters are
validated: `inverseLUT[c - inverseLUTOffset]`. -/
def lutVal58 (c : Nat) : Nat := inverseLUTL.getD (c - 49) 255

/-- The per-character validation step of the Go decoders:
`idx := int(c) - int(inverseLUTOffset); if idx > int(inverseLUTSentinel) { idx = sentinel };
inverseLUT[idx]`.  Only the upper side is clamped, so a character below
49 produces a negative index and the slice access faults: `none`. -/
def lutLookup (c : Nat) : Option Nat :=
  if c < 49 then none else some (inverseLUTL.getD (min (c - 49) 74) 255)

/-- The validation loop of the Go decoders: stop at the first fault or
at the first invalid character (value 255). -/
def validateChars : List Nat → Option Bool
  | [] => some true
  | c :: cs =>
    match lutLookup c with
    | none => none
    | some v => if v = 255 then some false else validateChars cs

/-- The grouping loop of the Go decoders: each run of five raw digits
becomes one intermediate value with weights `58^4 … 58^0` (the additions
run on `uint64`). -/
def interFromRaw (raw : List Nat) (cnt : Nat) : List Nat :=
  (List.range cnt).map fun i =>
    (raw.getD (5 * i) 0 * 11316496 + raw.getD (5 * i + 1) 0 * 195112 +
      raw.getD (5 * i + 2) 0 * 3364 + raw.getD (5 * i + 3) 0 * 58 +
      raw.getD (5 * i + 4) 0) % 2 ^ 64

/-- The `binary_` array of the Go decoders before carry normalization:
`binary_[j] = sum over i of intermediate[i] * decTable[i][j]` on `uint64`. -/
def decBinary (inter : List Nat) (t : List (List Nat)) (cols rows : Nat) : List Nat :=
  (List.range cols).map fun j =>
    (((List.range rows).map fun i => inter.getD i 0 * tblAt t i j).sum) % 2 ^ 64

/-- Go `binary.BigEndian.PutUint32` of a `uint64` cast down to `uint32`. -/
def putUint32BE (v : Nat) : List Nat :=
  let w := v % 2 ^ 32
  [w / 2 ^ 24 % 256, w / 2 ^ 16 % 256, w / 2 ^ 8 % 256, w % 256]

/-- The canonical-form check at the end of the Go decoders: every output
byte in the leading-zero run must correspond to character 49 in the
encoded text, and the character just after the run must not be 49. -/
def canonCheck (out enc : List Nat) : Bool :=
  let lzc := lzCount out
  ((enc.take lzc).all fun c => c == 49) &&
    (!(decide (lzc < enc.length)) || !(enc.getD lzc 0 == 49))

/-- Go `Decode32`.  Result: `none` for a runtime fault (index out of
range), `some none` for `return false`, `some (some out)` for success. -/
def decode32 (enc : List Nat) : Option (Option (List Nat)) :=
  if enc.length < 32 ∨ 44 < enc.length then some none
  else match validateChars enc with
  | none => none
  | some false => some none
  | some true =>
    let raw := List.replicate (45 - enc.length) 0 ++ enc.map lutVal58
    let bin := carryNorm (2 ^ 32) (2 ^ 64) (decBinary (interFromRaw raw 9) decTable32L 8 9)
    if 4294967295 < bin.getD 0 0 then some none
    else
      let out := bin.flatMap putUint32BE
      if canonCheck out enc then some (some out) else some none

/-- Go `Decode64`, in the same result convention as `decode32`. -/
def decode64 (enc : List Nat) : Option (Option (List Nat)) :=
  if enc.length < 64 ∨ 88 < enc.length then some none
  else match validateChars enc with
  | none => none
  | some false => some none
  | some true =>
    let raw := List.replicate (90 - enc.length) 0 ++ enc.map lutVal58
    let bin := carryNorm (2 ^ 32) (2 ^ 64) (decBinary (interFromRaw raw 18) decTable64L 16 18)
    if 4294967295 < bin.getD 0 0 then some none
    else
      let out := bin.flatMap putUint32BE
      if canonCheck out enc then some (some out) else some none

/-! ## The sealevel params codec

`Params.Serialize` writes the account block into a `bytes.Buffer`;
`Params.Update` reads a mutated block back from a `bytes.Reader`.  The
embedding keeps byte-exact track of what the Go code writes and reads:

* `bytes.Buffer.Grow(n)` only reserves capacity and writes no bytes, so
  the `Grow(7)`, `Grow(4)` and `Grow(acc.Padding)` calls of `Serialize`
  leave nothing in the output;
* `Serialize` assigns `acc.Padding` as a side effect, so it returns the
  byte output together with the updated accounts;
* `Update` mutates fields of account `i` only during iteration `i` and
  every control decision of iteration `i` reads pre-call fields
  (`IsDuplicate`, `DuplicateIndex`, `len(Data)`, `Padding`), so the
  embedding returns the error result without threading the partial
  mutations, which no later step observes; its successful exit would
  rebuild the struct, but the account loop `for i := 0; true; i++` can
  only leave through a `return`, making that exit unreachable.
-/
/-- One account input of the sealevel params (Go `AccountParam`). -/
structure AccountParam where
  isDuplicate : Bool
  duplicateIndex : Nat
  isSigner : Bool
  isWritable : Bool
  isExecutable : Bool
  key : List Nat
  owner : List Nat
  lamports : Nat
  data : List Nat
  padding : Nat
  rentEpoch : Nat
deriving DecidableEq, Repr

/-- The sealevel params block (Go `Params`). -/
structure SealevelParams where
  accounts : List AccountParam
  data : List Nat
  programID : List Nat
deriving DecidableEq, Repr

/-- Go `binary.Write(buf, binary.LittleEndian, v)` for a `uint64`. -/
def putUint64LE (v : Nat) : List Nat := (List.range 8).map fun i => v / 256 ^ i % 256

/-- Go `binary.Write` of a `bool`: one byte, 1 for true. -/
def boolByte (b : Bool) : Nat := if b then 1 else 0

/-- The account loop of Go `Params.Serialize`, carrying `buf.Len()` (the
second component returns the accounts with `Padding` updated).  A
duplicate account writes its single index byte (`Grow(7)` writes
nothing); a primary account writes the `0xFF` marker, three flag bytes
(`Grow(4)` writes nothing), key, owner, lamports, data length, data,
then records `Padding = ReallocSpace + 1 + (buf.Len()-1)/ReallocAlign`
(`Grow(Padding)` writes nothing) and writes the rent epoch. -/
def serAccounts : Nat → List AccountParam → List Nat × List AccountParam
  | _, [] => ([], [])
  | off, a :: rest =>
    if a.isDuplicate then
      let r := serAccounts (off + 1) rest
      (a.duplicateIndex % 256 :: r.1, a :: r.2)
    else
      let rec0 : List Nat :=
        255 :: boolByte a.isSigner :: boolByte a.isWritable :: boolByte a.isExecutable ::
          (a.key ++ a.owner ++ putUint64LE a.lamports ++ putUint64LE a.data.length ++ a.data)
      let off2 := off + rec0.length
      let a2 : AccountParam :=
        ⟨a.isDuplicate, a.duplicateIndex, a.isSigner, a.isWritable, a.isExecutable,
          a.key, a.owner, a.lamports, a.data, 10240 + 1 + (off2 - 1) / 8, a.rentEpoch⟩
      let r := serAccounts (off2 + 8) rest
      (rec0 ++ putUint64LE a.rentEpoch ++ r.1, a2 :: r.2)

/-- Go `Params.Serialize`: the bytes written to the buffer, and the
params with the `Padding` side effects applied. -/
def serializeParams (p : SealevelParams) : List Nat × SealevelParams :=
  let head := putUint64LE p.accounts.length
  let r := serAccounts 8 p.accounts
  (head ++ r.1 ++ putUint64LE p.data.length ++ p.data ++ p.programID,
    ⟨r.2, p.data, p.programID⟩)

/-- A `bytes.Reader`: the byte source and the cursor position. -/
structure ByteReader where
  buf : List Nat
  pos : Nat
deriving DecidableEq, Repr

/-- Go `bytes.Reader.ReadByte`: `none` is the `io.EOF` error. -/
def rdByte (r : ByteReader) : Option (Nat × ByteReader) :=
  if r.pos < r.buf.length then some (r.buf.getD r.pos 0, ⟨r.buf, r.pos + 1⟩) else none

/-- A single `Read` into an `n`-byte destination: returns the bytes
actually available (at most `n`) and advances past them. -/
def rdRead (r : ByteReader) (n : Nat) : List Nat × ByteReader :=
  let t := min n (r.buf.length - r.pos)
  ((r.buf.drop r.pos).take t, ⟨r.buf, r.pos + t⟩)

/-- Value of a little-endian byte list. -/
def ofUint64LE (bs : List Nat) : Nat := bs.foldr (fun b acc => acc * 256 + b) 0

/-- Go `binary.Read(buf, binary.LittleEndian, &x)` for a `uint64`: reads
up to eight bytes; on a short read the destination is not assigned
(`none`), matching `io.ReadFull`. -/
def rdUint64 (r : ByteReader) : Option Nat × ByteReader :=
  let t := rdRead r 8
  (if t.1.length = 8 then some (ofUint64LE t.1) else none, t.2)

/-- Go `binary.Read` for a `bool`: one byte, nonzero meaning true. -/
def rdBool (r : ByteReader) : Option Bool × ByteReader :=
  let t := rdRead r 1
  (if t.1.length = 1 then some (t.1.getD 0 0 != 0) else none, t.2)

/-- Go `bytes.Reader.Seek(off, io.SeekCurrent)`: a negative absolute
position is an error (which `Update` ignores), leaving the cursor in
place; seeking past the end is allowed. -/
def rdSeek (r : ByteReader) (off : Int) : ByteReader :=
  if (r.pos : Int) + off < 0 then r else ⟨r.buf, ((r.pos : Int) + off).toNat⟩

/-- The account loop of Go `Params.Update`.  The list argument is the
still-unvisited tail of `p.Accounts`; exhausting it reproduces the
`i >= len(p.Accounts)` exit, which returns the account-count error even
after a complete walk.  All other exits return the errors of the Go
code; the returned reader is never produced. -/
def updAccounts : ByteReader → List AccountParam → Except String ByteReader
  | _, [] => Except.error "number of accounts changed"
  | r, a :: rest =>
    match rdByte r with
    | none => Except.error "EOF"
    | some (idx, r1) =>
      if (!a.isDuplicate && idx != 255) || a.duplicateIndex % 256 != idx then
        Except.error "account order changed"
      else if idx != 255 then updAccounts r1 rest
      else
        let s1 := rdBool r1
        let s2 := rdBool s1.2
        let s3 := rdBool s2.2
        let r5 := rdSeek s3.2 4
        let s4 := rdRead r5 32
        let s5 := rdRead s4.2 32
        let s6 := rdUint64 s5.2
        let oldLen := a.data.length
        let s7 := rdUint64 s6.2
        let newLen := s7.1.getD 0
        if newLen < oldLen then Except.error "attempted to shrink account"
        else if oldLen + 10240 < newLen then Except.error "attempted to grow account too much"
        else
          let s8 := rdRead s7.2 newLen
          let r11 := rdSeek s8.2 ((a.padding : Int) - ((newLen : Int) - (oldLen : Int)))
          let s9 := rdUint64 r11
          updAccounts s9.2 rest

/-- Go `Params.Update` applied to a byte source.  The code after the
account loop (skip the instruction data, read back the program
identifier) is kept for completeness but is unreachable: the loop always
returns. -/
def updateParams (p : SealevelParams) (buf : List Nat) : Except String SealevelParams :=
  match updAccounts ⟨buf, 0⟩ p.accounts with
  | Except.error e => Except.error e
  | Except.ok r =>
    let r2 := rdSeek r (p.data.length : Int)
    let t := rdRead r2 32
    if t.1.length = 0 then Except.error "EOF"
    else Except.ok ⟨p.accounts, p.data, t.1 ++ p.programID.drop t.1.length⟩

/-- The Go usage pattern under test: `p.Serialize(buf)` followed by
`p.Update(buf)` — `Update` runs on the params carrying the `Padding`
side effects of `Serialize`, over exactly the serialized bytes. -/
def serThenUpdate (p : SealevelParams) : Except String SealevelParams :=
  updateParams (serializeParams p).2 (serializeParams p).1

/-! ## Behaviour of the sealevel codec -/
/-- Whether an `Except` result is an error. -/
def isErr : Except String ByteReader → Bool
  | Except.error _ => true
  | Except.ok _ => false

/-- 32 zero bytes. -/
def zeros32 : List Nat := List.replicate 32 0

/-- A primary account whose `DuplicateIndex` happens to hold `0xFF`. -/
def goodPrim : AccountParam := ⟨false, 255, false, false, false, zeros32, zeros32, 0, [0], 0, 0⟩

/-- A primary account whose `DuplicateIndex` is not `0xFF`, as the
struct documentation requires. -/
def badPrim : AccountParam := ⟨false, 0, false, false, false, zeros32, zeros32, 0, [], 0, 0⟩

/-- A duplicate account referring to index 0. -/
def dupAcc : AccountParam := ⟨true, 0, false, false, false, zeros32, zeros32, 0, [], 0, 0⟩

/-- A 255-account block: the account loop of `Update` misparses its own
serialization long before reaching the documented-primary account. -/
def monster : SealevelParams := ⟨goodPrim :: badPrim :: List.replicate 253 dupAcc, [], zeros32⟩

/-- A duplicate account whose index byte happens to equal the low byte
of the account count. -/
def dupOne : AccountParam := ⟨true, 1, false, false, false, zeros32, zeros32, 0, [], 0, 0⟩

theorem ofDigitsBE_nil (b : Nat) : ofDigitsBE b [] = 0 := rfl

theorem ofDigitsBE_foldl (b a : Nat) (ds : List Nat) :
    List.foldl (fun acc d => acc * b + d) a ds = a * b ^ ds.length + ofDigitsBE b ds := by
  induction ds generalizing a with
  | nil => simp [ofDigitsBE]
  | cons d ds ih =>
    simp only [List.foldl_cons, List.length_cons]
    rw [ih (a * b + d),
      show ofDigitsBE b (d :: ds)
        = List.foldl (fun acc x => acc * b + x) (0 * b + d) ds from rfl,
      ih (0 * b + d)]
    ring

theorem ofDigitsBE_cons (b d : Nat) (ds : List Nat) :
    ofDigitsBE b (d :: ds) = d * b ^ ds.length + ofDigitsBE b ds := by
  show List.foldl _ (0 * b + d) ds = _
  rw [ofDigitsBE_foldl]
  ring_nf

theorem ofDigitsBE_append (b : Nat) (xs ys : List Nat) :
    ofDigitsBE b (xs ++ ys) = ofDigitsBE b xs * b ^ ys.length + ofDigitsBE b ys := by
  induction xs with
  | nil => simp [ofDigitsBE]
  | cons x xs ih =>
    rw [List.cons_append, ofDigitsBE_cons, ofDigitsBE_cons, ih]
    simp only [List.length_append, pow_add]
    ring

theorem ofDigitsBE_lt (b : Nat) (ds : List Nat) (h : ∀ d ∈ ds, d < b) :
    ofDigitsBE b ds < b ^ ds.length := by
  induction ds with
  | nil => simp [ofDigitsBE]
  | cons d ds ih =>
    rw [ofDigitsBE_cons]
    have hd : d < b := h d (by simp)
    have hds : ofDigitsBE b ds < b ^ ds.length := ih (fun x hx => h x (by simp [hx]))
    have h2 : (d + 1) * b ^ ds.length ≤ b * b ^ ds.length :=
      Nat.mul_le_mul_right _ hd
    calc d * b ^ ds.length + ofDigitsBE b ds
        < d * b ^ ds.length + b ^ ds.length := by omega
      _ = (d + 1) * b ^ ds.length := by ring
      _ ≤ b * b ^ ds.length := h2
      _ = b ^ (d :: ds).length := by rw [List.length_cons, pow_succ]; ring

theorem ofDigitsBE_replicate_zero (b k : Nat) : ofDigitsBE b (List.replicate k 0) = 0 := by
  induction k with
  | zero => rfl
  | succ k ih => rw [List.replicate_succ, ofDigitsBE_cons, ih]; ring

theorem ofDigitsBE_zero_append (b k : Nat) (ds : List Nat) :
    ofDigitsBE b (List.replicate k 0 ++ ds) = ofDigitsBE b ds := by
  rw [ofDigitsBE_append, ofDigitsBE_replicate_zero]; ring

theorem toDigitsBE_length (b l : Nat) : ∀ n, (toDigitsBE b l n).length = l := by
  induction l with
  | zero => intro n; rfl
  | succ l ih => intro n; simp [toDigitsBE, ih]

theorem toDigitsBE_lt_base (b l : Nat) (hb : 0 < b) :
    ∀ n, ∀ d ∈ toDigitsBE b l n, d < b := by
  induction l with
  | zero => intro n d hd; simp [toDigitsBE] at hd
  | succ l ih =>
    intro n d hd
    simp only [toDigitsBE, List.mem_cons] at hd
    rcases hd with h | h
    · rw [h]; exact Nat.mod_lt _ hb
    · exact ih n d h

theorem toDigitsBE_mod (b l : Nat) : ∀ n, toDigitsBE b l (n % b ^ l) = toDigitsBE b l n := by
  induction l with
  | zero => intro n; rfl
  | succ l ih =>
    intro n
    have hdvd : b ^ l ∣ b ^ (l + 1) := pow_dvd_pow b (Nat.le_succ l)
    simp only [toDigitsBE]
    congr 1
    · rw [pow_succ, Nat.mod_mul_right_div_self, Nat.mod_mod_of_dvd _ dvd_rfl]
    · rw [← ih (n % b ^ (l + 1)), Nat.mod_mod_of_dvd n hdvd, ih n]

theorem mod_pow_succ_eq (b l n : Nat) :
    n % b ^ (l + 1) = n / b ^ l % b * b ^ l + n % b ^ l := by
  rw [pow_succ]
  conv_lhs => rw [← Nat.div_add_mod (n % (b ^ l * b)) (b ^ l)]
  rw [Nat.mod_mul_right_div_self, Nat.mod_mod_of_dvd n (dvd_mul_right (b ^ l) b)]
  ring

theorem ofDigitsBE_toDigitsBE (b l : Nat) :
    ∀ n, ofDigitsBE b (toDigitsBE b l n) = n % b ^ l := by
  induction l with
  | zero => intro n; simp [toDigitsBE, ofDigitsBE, Nat.mod_one]
  | succ l ih =>
    intro n
    rw [show toDigitsBE b (l + 1) n = n / b ^ l % b :: toDigitsBE b l n from rfl,
      ofDigitsBE_cons, toDigitsBE_length, ih n, mod_pow_succ_eq]

theorem toDigitsBE_ofDigitsBE (b : Nat) : ∀ ds : List Nat, (∀ d ∈ ds, d < b) →
    toDigitsBE b ds.length (ofDigitsBE b ds) = ds := by
  intro ds
  induction ds with
  | nil => intro _; rfl
  | cons d ds ih =>
    intro h
    have hd : d < b := h d (by simp)
    have hb : 0 < b := lt_of_le_of_lt (Nat.zero_le d) hd
    have hW : ofDigitsBE b ds < b ^ ds.length :=
      ofDigitsBE_lt b ds (fun x hx => h x (by simp [hx]))
    rw [List.length_cons, ofDigitsBE_cons]
    show toDigitsBE b (ds.length + 1) (d * b ^ ds.length + ofDigitsBE b ds) = d :: ds
    simp only [toDigitsBE]
    congr 1
    · rw [add_comm (d * b ^ ds.length), mul_comm d (b ^ ds.length),
        Nat.add_mul_div_left _ _ (pow_pos hb ds.length), Nat.div_eq_of_lt hW,
        Nat.zero_add, Nat.mod_eq_of_lt hd]
    · rw [← toDigitsBE_mod b ds.length, mul_comm d (b ^ ds.length), Nat.mul_add_mod,
        Nat.mod_eq_of_lt hW]
      exact ih (fun x hx => h x (by simp [hx]))

theorem toDigitsBE_split (b c : Nat) : ∀ a n : Nat,
    toDigitsBE b (a + c) n = toDigitsBE b a (n / b ^ c) ++ toDigitsBE b c n := by
  intro a
  induction a with
  | zero =>
    intro n
    rw [Nat.zero_add, show toDigitsBE b 0 (n / b ^ c) = [] from rfl, List.nil_append]
  | succ a ih =>
    intro n
    rw [Nat.succ_add]
    show _ :: toDigitsBE b (a + c) n = _
    rw [show toDigitsBE b (a + 1) (n / b ^ c)
        = (n / b ^ c) / b ^ a % b :: toDigitsBE b a (n / b ^ c) from rfl,
      List.cons_append]
    congr 1
    · rw [Nat.div_div_eq_div_mul, ← pow_add, add_comm c a]
    · exact ih n

theorem toDigitsBE_grouping (b k : Nat) : ∀ l n : Nat,
    toDigitsBE b (k * l) n = (toDigitsBE (b ^ k) l n).flatMap (toDigitsBE b k) := by
  intro l
  induction l with
  | zero => intro n; simp [Nat.mul_zero, toDigitsBE]
  | succ l ih =>
    intro n
    rw [Nat.mul_succ, add_comm (k * l) k, toDigitsBE_split b (k * l) k n,
      show toDigitsBE (b ^ k) (l + 1) n
        = n / (b ^ k) ^ l % b ^ k :: toDigitsBE (b ^ k) l n from rfl,
      List.flatMap_cons]
    congr 1
    · rw [← pow_mul, ← toDigitsBE_mod b k (n / b ^ (k * l))]
    · exact ih n

theorem lzCount_le_length : ∀ ds : List Nat, lzCount ds ≤ ds.length := by
  intro ds
  induction ds with
  | nil => exact Nat.le_refl 0
  | cons d ds ih =>
    by_cases h : d = 0 <;> simp [lzCount, h] <;> omega

theorem lzCount_getD_eq_zero : ∀ (ds : List Nat) (i : Nat), i < lzCount ds → ds.getD i 0 = 0 := by
  intro ds
  induction ds with
  | nil => intro i hi; simp [lzCount] at hi
  | cons d ds ih =>
    intro i hi
    by_cases h : d = 0
    · subst h
      have hls : lzCount (0 :: ds) = lzCount ds + 1 := by simp [lzCount]
      cases i with
      | zero => rfl
      | succ i =>
        rw [hls] at hi
        exact ih i (by omega)
    · have hls : lzCount (d :: ds) = 0 := by simp [lzCount, h]
      omega

theorem lzCount_getD_pos : ∀ ds : List Nat, lzCount ds < ds.length →
    ds.getD (lzCount ds) 0 ≠ 0 := by
  intro ds
  induction ds with
  | nil => intro h; simp at h
  | cons d ds ih =>
    intro h
    by_cases h0 : d = 0
    · subst h0
      have hls : lzCount (0 :: ds) = lzCount ds + 1 := by simp [lzCount]
      rw [hls] at h ⊢
      exact ih (by simpa using h)
    · have hls : lzCount (d :: ds) = 0 := by simp [lzCount, h0]
      rw [hls]
      simpa using h0

theorem lzCount_replicate_append (ds : List Nat) : ∀ k : Nat,
    lzCount (List.replicate k 0 ++ ds) = k + lzCount ds := by
  intro k
  induction k with
  | zero => simp
  | succ k ih =>
    rw [List.replicate_succ, List.cons_append]
    have hls : lzCount (0 :: (List.replicate k 0 ++ ds))
        = lzCount (List.replicate k 0 ++ ds) + 1 := by simp [lzCount]
    rw [hls, ih]
    omega

theorem lz_toDigitsBE (b : Nat) (hb : 2 ≤ b) : ∀ k l n : Nat, k ≤ l → n < b ^ l →
    (k ≤ lzCount (toDigitsBE b l n) ↔ n < b ^ (l - k)) := by
  intro k
  induction k with
  | zero =>
    intro l n _ hn
    simpa using hn
  | succ k ih =>
    intro l n hk hn
    obtain ⟨l, rfl⟩ : ∃ m, l = m + 1 := ⟨l - 1, by omega⟩
    have hbpos : 0 < b := by omega
    have hd : n / b ^ l < b := by
      apply Nat.div_lt_of_lt_mul
      calc n < b ^ (l + 1) := hn
        _ = b ^ l * b := pow_succ b l
    have hdm : n / b ^ l % b = n / b ^ l := Nat.mod_eq_of_lt hd
    have hsub : l + 1 - (k + 1) = l - k := by omega
    rw [show toDigitsBE b (l + 1) n = n / b ^ l % b :: toDigitsBE b l n from rfl, hdm, hsub]
    by_cases h0 : n / b ^ l = 0
    · have hn2 : n < b ^ l := by
        by_contra hlt
        have h1 : 0 < n / b ^ l := Nat.div_pos (by omega) (pow_pos hbpos l)
        omega
      have hlz : lzCount (n / b ^ l :: toDigitsBE b l n) = lzCount (toDigitsBE b l n) + 1 := by
        simp [lzCount, h0]
      rw [hlz, ← ih l n (by omega) hn2]
      omega
    · have hlz : lzCount (n / b ^ l :: toDigitsBE b l n) = 0 := by
        simp [lzCount, h0]
      rw [hlz]
      have hge : b ^ l ≤ n := by
        by_contra hlt
        exact h0 (Nat.div_eq_of_lt (by omega))
      have hle : b ^ (l - k) ≤ b ^ l := Nat.pow_le_pow_right hbpos (by omega)
      constructor
      · intro hh; omega
      · intro hh; omega

theorem takeWhile_length_eq (p : Nat → Bool) : ∀ (ds : List Nat) (k : Nat), k ≤ ds.length →
    (∀ i, i < k → p (ds.getD i 0) = true) → (k < ds.length → p (ds.getD k 0) = false) →
    (ds.takeWhile p).length = k := by
  intro ds
  induction ds with
  | nil =>
    intro k hk _ _
    simp at hk
    simp [hk]
  | cons d ds ih =>
    intro k hk h1 h2
    cases k with
    | zero =>
      have hp : p d = false := h2 (by simp)
      simp [List.takeWhile, hp]
    | succ k =>
      have hp : p d = true := h1 0 (by omega)
      simp only [List.takeWhile, hp, List.length_cons]
      have := ih k (by simpa using hk) (fun i hi => h1 (i + 1) (by omega))
        (fun hlt => h2 (by simpa using hlt))
      omega

theorem div_carry_bound (d B y : Nat) (hd : 2 ≤ d) (hy : y ≤ B + B / (d - 1) + 1) :
    y / d ≤ B / (d - 1) + 1 := by
  obtain ⟨e, rfl⟩ : ∃ e, d = e + 1 := ⟨d - 1, by omega⟩
  have he : 1 ≤ e := by omega
  rw [Nat.add_sub_cancel] at hy ⊢
  have hdm : e * (B / e) + B % e = B := Nat.div_add_mod B e
  have hr : B % e < e := Nat.mod_lt _ (by omega)
  have hlt : y < (B / e + 2) * (e + 1) := by nlinarith [hy, hdm, hr]
  have := (Nat.div_lt_iff_lt_mul (by omega : 0 < e + 1)).mpr hlt
  omega

theorem carryNorm_spec (d m B : Nat) (hd : 2 ≤ d) (hm : B + B / (d - 1) + 1 < m) :
    ∀ ds : List Nat, ds ≠ [] → (∀ e ∈ ds, e ≤ B) →
      carryNorm d m ds
          = ofDigitsBE d ds / d ^ (ds.length - 1)
            :: toDigitsBE d (ds.length - 1) (ofDigitsBE d ds)
        ∧ ofDigitsBE d ds / d ^ (ds.length - 1) ≤ B + B / (d - 1) + 1 := by
  intro ds
  induction ds with
  | nil => intro h; exact absurd rfl h
  | cons x xs ih =>
    intro _ hB
    have hdpos : 0 < d := by omega
    cases xs with
    | nil =>
      have hx : ofDigitsBE d [x] = x := by simp [ofDigitsBE_cons, ofDigitsBE]
      refine ⟨?_, ?_⟩
      · show [x] = _
        rw [List.length_singleton, Nat.sub_self, hx]
        simp [toDigitsBE]
      · rw [List.length_singleton, Nat.sub_self, hx]
        have hxB : x ≤ B := hB x (by simp)
        simp only [pow_zero, Nat.div_one]
        exact le_trans hxB (by rw [add_assoc]; exact Nat.le_add_right B _)
    | cons y ys =>
      obtain ⟨heq, hbd⟩ := ih (by simp) (fun e he => hB e (by simp [he]))
      have hxB : x ≤ B := hB x (by simp)
      have hL : (y :: ys).length - 1 = ys.length := by simp
      rw [hL] at heq hbd
      set L := ys.length with hLdef
      set W := ofDigitsBE d (y :: ys) with hW
      set z := W / d ^ L with hz
      have hVW : ofDigitsBE d (x :: y :: ys) = x * d ^ (L + 1) + W := by
        rw [ofDigitsBE_cons]
        simp [hLdef]
      have hcn : carryNorm d m (x :: y :: ys)
          = (x + (carryNorm d m (y :: ys)).headD 0 / d) % m
            :: (carryNorm d m (y :: ys)).headD 0 % d
            :: (carryNorm d m (y :: ys)).tail := rfl
      rw [hcn, heq]
      simp only [List.headD_cons, List.tail_cons]
      have hcarry : z / d ≤ B / (d - 1) + 1 := div_carry_bound d B z hd hbd
      have hhead : x + z / d ≤ B + B / (d - 1) + 1 := by
        calc x + z / d ≤ B + (B / (d - 1) + 1) := Nat.add_le_add hxB hcarry
          _ = B + B / (d - 1) + 1 := by ring
      have hmod : (x + z / d) % m = x + z / d :=
        Nat.mod_eq_of_lt (Nat.lt_of_le_of_lt hhead hm)
      have hWt : W / d ^ (L + 1) = z / d := by
        rw [hz, Nat.div_div_eq_div_mul, ← pow_succ]
      have hVt : ofDigitsBE d (x :: y :: ys) / d ^ (L + 1) = x + z / d := by
        rw [hVW, add_comm (x * d ^ (L + 1)) W, mul_comm x (d ^ (L + 1)),
          Nat.add_mul_div_left _ _ (pow_pos hdpos (L + 1)), hWt]
        exact Nat.add_comm _ _
      have hVL : ofDigitsBE d (x :: y :: ys) / d ^ L = z + x * d := by
        rw [hVW, add_comm (x * d ^ (L + 1)) W,
          show d ^ (L + 1) = d * d ^ L from (pow_succ' d L :)]
        rw [show x * (d * d ^ L) = x * d * d ^ L by ring,
          Nat.add_mul_div_right _ _ (pow_pos hdpos L), ← hz]
      have hVmod : ofDigitsBE d (x :: y :: ys) % d ^ L = W % d ^ L := by
        rw [hVW, add_comm (x * d ^ (L + 1)) W,
          show d ^ (L + 1) = d * d ^ L from (pow_succ' d L :)]
        rw [show x * (d * d ^ L) = x * d * d ^ L by ring, Nat.add_mul_mod_self_right]
      refine ⟨?_, ?_⟩
      · have hlen : (x :: y :: ys).length - 1 = L + 1 := by simp [hLdef]
        rw [hlen]
        rw [show toDigitsBE d (L + 1) (ofDigitsBE d (x :: y :: ys))
            = ofDigitsBE d (x :: y :: ys) / d ^ L % d
              :: toDigitsBE d L (ofDigitsBE d (x :: y :: ys)) from rfl]
        rw [hVt, hmod, hVL, Nat.add_mul_mod_self_right]
        congr 1
        congr 1
        rw [← toDigitsBE_mod d L (ofDigitsBE d (x :: y :: ys)), hVmod, toDigitsBE_mod]
      · have hlen : (x :: y :: ys).length - 1 = L + 1 := by simp [hLdef]
        rw [hlen, hVt]
        exact hhead

theorem list_range_map_sum (f : Nat → Nat) : ∀ n : Nat,
    ((List.range n).map f).sum = ∑ i in Finset.range n, f i := by
  intro n
  induction n with
  | zero => simp
  | succ n ih =>
    rw [List.range_succ, List.map_append, List.sum_append, Finset.sum_range_succ, ih]
    simp

theorem range_map_getD (f : Nat → Nat) : ∀ xs : List Nat,
    (List.range xs.length).map (fun i => f (xs.getD i 0)) = xs.map f := by
  intro xs
  induction xs with
  | nil => rfl
  | cons x xs ih =>
    rw [List.length_cons, List.range_succ_eq_map, List.map_cons, List.map_map, List.map_cons]
    congr 1

theorem ofDigitsBE_range_map (b : Nat) (f : Nat → Nat) : ∀ n : Nat,
    ofDigitsBE b ((List.range n).map f) = ∑ j in Finset.range n, f j * b ^ (n - 1 - j) := by
  intro n
  induction n with
  | zero => simp [ofDigitsBE]
  | succ n ih =>
    rw [List.range_succ, List.map_append, ofDigitsBE_append, ih, Finset.sum_range_succ]
    rw [show List.map f [n] = [f n] from rfl,
      show ofDigitsBE b [f n] = f n by simp [ofDigitsBE_cons, ofDigitsBE],
      List.length_singleton, pow_one, Finset.sum_mul]
    rw [Nat.add_sub_cancel, Nat.sub_self, pow_zero, mul_one]
    congr 1
    refine Finset.sum_congr rfl (fun j hj => ?_)
    have hj2 : n - 1 - j + 1 = n - j := by
      have := Finset.mem_range.mp hj
      omega
    rw [mul_assoc, ← pow_succ, hj2]

/-! ## Correctness of the multiply-accumulate conversion

The encoders and decoders convert between positional systems through the
precomputed tables.  The next lemmas reduce each conversion to the value
identity of its table rows, which is then checked by computation.
-/
theorem getD_lt_of_all (c : Nat) (hc : 0 < c) :
    ∀ (l : List Nat) (i : Nat), (∀ x ∈ l, x < c) → l.getD i 0 < c := by
  intro l
  induction l with
  | nil => intro i _; simpa using hc
  | cons x xs ih =>
    intro i h
    cases i with
    | zero => exact h x (by simp)
    | succ i => exact ih i (fun y hy => h y (by simp [hy]))

theorem getD_le_of_all (c : Nat) :
    ∀ (l : List Nat) (i : Nat), (∀ x ∈ l, x ≤ c) → l.getD i 0 ≤ c := by
  intro l
  induction l with
  | nil => intro i _; simp
  | cons x xs ih =>
    intro i h
    cases i with
    | zero => exact h x (by simp)
    | succ i => exact ih i (fun y hy => h y (by simp [hy]))

theorem listsum_le (f g : Nat → Nat) : ∀ n : Nat, (∀ k < n, f k ≤ g k) →
    ((List.range n).map f).sum ≤ ((List.range n).map g).sum := by
  intro n
  induction n with
  | zero => intro _; simp
  | succ n ih =>
    intro h
    rw [List.range_succ]
    simp only [List.map_append, List.sum_append, List.map_cons, List.map_nil,
      List.sum_cons, List.sum_nil]
    have h1 := ih (fun k hk => h k (by omega))
    have h2 := h n (by omega)
    omega

theorem range_map_getD_lt (f : Nat → Nat) (n i : Nat) (hi : i < n) :
    ((List.range n).map f).getD i 0 = f i := by
  rw [List.getD_eq_getElem?_getD, List.getElem?_map, List.getElem?_range hi]
  rfl

/-- The cell of `macCell` is below its all-ones column bound, with the
wrap dropped whenever that bound is below `2 ^ 64`. -/
theorem macCell_eq_sum (limbs : List Nat) (tbl : List (List Nat)) (lo hi j : Nat)
    (hlim : ∀ x ∈ limbs, x < 2 ^ 32)
    (hcol : ((List.range (hi - lo)).map fun k => 4294967295 * tblAt tbl (lo + k) j).sum
      < 2 ^ 64) :
    macCell limbs tbl lo hi j
        = ((List.range (hi - lo)).map fun k => limbs.getD (lo + k) 0 * tblAt tbl (lo + k) j).sum
      ∧ macCell limbs tbl lo hi j
        ≤ ((List.range (hi - lo)).map fun k => 4294967295 * tblAt tbl (lo + k) j).sum := by
  have hle : ((List.range (hi - lo)).map fun k =>
      limbs.getD (lo + k) 0 * tblAt tbl (lo + k) j).sum
      ≤ ((List.range (hi - lo)).map fun k => 4294967295 * tblAt tbl (lo + k) j).sum := by
    refine listsum_le _ _ _ (fun k _ => ?_)
    have : limbs.getD (lo + k) 0 ≤ 4294967295 := by
      have := getD_lt_of_all (2 ^ 32) (by norm_num) limbs (lo + k) hlim
      omega
    exact Nat.mul_le_mul_right _ this
  have heq : macCell limbs tbl lo hi j
      = ((List.range (hi - lo)).map fun k =>
        limbs.getD (lo + k) 0 * tblAt tbl (lo + k) j).sum :=
    Nat.mod_eq_of_lt (lt_of_le_of_lt hle hcol)
  exact ⟨heq, heq ▸ hle⟩

/-- Value of a zero-headed cell list in terms of its column sums. -/
theorem ofDigits_cells (D C : Nat) (g : Nat → Nat) :
    ofDigitsBE D ((List.range (C + 1)).map fun j => if j = 0 then 0 else g (j - 1))
      = ∑ j in Finset.range C, g j * D ^ (C - 1 - j) := by
  rw [ofDigitsBE_range_map, Finset.sum_range_succ']
  have h0 : (if (0 : Nat) = 0 then (0 : Nat) else g (0 - 1)) * D ^ (C + 1 - 1 - 0) = 0 := by
    simp
  rw [h0, add_zero]
  refine Finset.sum_congr rfl (fun j _ => ?_)
  have h1 : (if j + 1 = 0 then (0 : Nat) else g (j + 1 - 1)) = g j := by simp
  have h2 : C + 1 - 1 - (j + 1) = C - 1 - j := by omega
  rw [h1, h2]

theorem sum_exchange (R C : Nat) (a : Nat → Nat) (t : Nat → Nat → Nat) (w : Nat → Nat) :
    ∑ j in Finset.range C, (∑ i in Finset.range R, a i * t i j) * w j
      = ∑ i in Finset.range R, a i * ∑ j in Finset.range C, t i j * w j := by
  simp_rw [Finset.sum_mul, mul_assoc, Finset.mul_sum]
  exact Finset.sum_comm

theorem limbsOf_length (inb : List Nat) (n : Nat) : (limbsOf inb n).length = n := by
  simp [limbsOf]

theorem getD_cons4 (b0 b1 b2 b3 : Nat) (rest : List Nat) (k : Nat) :
    (b0 :: b1 :: b2 :: b3 :: rest).getD (k + 4) 0 = rest.getD k 0 := rfl

theorem limbsOf_cons4 (b0 b1 b2 b3 : Nat) (rest : List Nat) (n : Nat) :
    limbsOf (b0 :: b1 :: b2 :: b3 :: rest) (n + 1)
      = beUint32 b0 b1 b2 b3 :: limbsOf rest n := by
  unfold limbsOf
  rw [List.range_succ_eq_map, List.map_cons, List.map_map]
  congr 1

theorem limbsOf_lt (inb : List Nat) (n : Nat) (hb : ∀ x ∈ inb, x < 256) :
    ∀ x ∈ limbsOf inb n, x < 2 ^ 32 := by
  intro x hx
  simp only [limbsOf, List.mem_map, List.mem_range] at hx
  obtain ⟨i, _, rfl⟩ := hx
  have h0 := getD_lt_of_all 256 (by norm_num) inb (4 * i) hb
  have h1 := getD_lt_of_all 256 (by norm_num) inb (4 * i + 1) hb
  have h2 := getD_lt_of_all 256 (by norm_num) inb (4 * i + 2) hb
  have h3 := getD_lt_of_all 256 (by norm_num) inb (4 * i + 3) hb
  unfold beUint32
  omega

theorem limbsOf_value : ∀ (n : Nat) (inb : List Nat), inb.length = 4 * n →
    ofDigitsBE (2 ^ 32) (limbsOf inb n) = ofDigitsBE 256 inb := by
  intro n
  induction n with
  | zero =>
    intro inb hlen
    have h : inb = [] := List.eq_nil_of_length_eq_zero (by omega)
    subst h; rfl
  | succ n ih =>
    intro inb hlen
    cases inb with
    | nil => simp at hlen
    | cons b0 t0 =>
    cases t0 with
    | nil => simp at hlen; omega
    | cons b1 t1 =>
    cases t1 with
    | nil => simp at hlen; omega
    | cons b2 t2 =>
    cases t2 with
    | nil => simp at hlen; omega
    | cons b3 rest =>
    have hL : rest.length = 4 * n := by
      simp only [List.length_cons] at hlen
      omega
    rw [limbsOf_cons4, ofDigitsBE_cons, limbsOf_length, ih rest hL]
    rw [ofDigitsBE_cons, ofDigitsBE_cons, ofDigitsBE_cons, ofDigitsBE_cons]
    simp only [List.length_cons]
    rw [hL]
    rw [show (2 : Nat) ^ 32 = 256 ^ 4 by norm_num, ← pow_mul]
    unfold beUint32
    ring

/-- Value identity of the `Encode32` multiply-accumulate: the cell list
represents, in base 58^5, the same number as the limbs in base 2^32;
the table row identities are checked by computation. -/
theorem inter32_value (limbs : List Nat) (hlim : ∀ x ∈ limbs, x < 2 ^ 32) :
    ofDigitsBE r1Div (inter32MAC limbs)
      = ∑ i in Finset.range 8, limbs.getD i 0 * 2 ^ (32 * (7 - i)) := by
  unfold inter32MAC
  rw [show (9 : Nat) = 8 + 1 from rfl,
    ofDigits_cells r1Div 8 (fun j => macCell limbs encTable32L 0 8 j)]
  have hcol : ∀ j < 8,
      ((List.range (8 - 0)).map fun k => 4294967295 * tblAt encTable32L (0 + k) j).sum
        < 2 ^ 64 := by decide
  have step1 : ∑ j in Finset.range 8, macCell limbs encTable32L 0 8 j * r1Div ^ (8 - 1 - j)
      = ∑ j in Finset.range 8,
        (∑ i in Finset.range 8, limbs.getD i 0 * tblAt encTable32L i j) * r1Div ^ (8 - 1 - j) := by
    refine Finset.sum_congr rfl (fun j hj => ?_)
    rw [(macCell_eq_sum limbs encTable32L 0 8 j hlim (hcol j (Finset.mem_range.mp hj))).1,
      list_range_map_sum]
    refine congrArg (fun s => s * r1Div ^ (8 - 1 - j)) ?_
    refine Finset.sum_congr (by norm_num) (fun k hk => ?_)
    rw [Nat.zero_add]
  rw [step1, sum_exchange 8 8 (fun i => limbs.getD i 0)
    (fun i j => tblAt encTable32L i j) (fun j => r1Div ^ (8 - 1 - j))]
  have hrow : ∀ i < 8,
      ((List.range 8).map fun j => tblAt encTable32L i j * r1Div ^ (8 - 1 - j)).sum
        = 2 ^ (32 * (7 - i)) := by decide
  have hrowF : ∀ i, i < 8 →
      ∑ j in Finset.range 8, tblAt encTable32L i j * r1Div ^ (8 - 1 - j)
        = 2 ^ (32 * (7 - i)) := by
    intro i hi
    rw [← list_range_map_sum]
    exact hrow i hi
  exact Finset.sum_congr rfl (fun i hi =>
    congrArg (fun s => limbs.getD i 0 * s) (hrowF i (Finset.mem_range.mp hi)))

theorem inter32_X (inb : List Nat) (hl : inb.length = 32) (hb : ∀ x ∈ inb, x < 256) :
    ofDigitsBE r1Div (inter32MAC (limbsOf inb 8)) = ofDigitsBE 256 inb := by
  rw [inter32_value _ (limbsOf_lt inb 8 hb), ← limbsOf_value 8 inb (by omega)]
  conv_rhs => rw [show limbsOf inb 8 = (List.range 8).map fun i =>
    beUint32 (inb.getD (4 * i) 0) (inb.getD (4 * i + 1) 0)
      (inb.getD (4 * i + 2) 0) (inb.getD (4 * i + 3) 0) from rfl]
  rw [ofDigitsBE_range_map]
  refine Finset.sum_congr rfl (fun i hi => ?_)
  have hi8 := Finset.mem_range.mp hi
  rw [show (limbsOf inb 8).getD i 0 = beUint32 (inb.getD (4 * i) 0) (inb.getD (4 * i + 1) 0)
      (inb.getD (4 * i + 2) 0) (inb.getD (4 * i + 3) 0) from range_map_getD_lt _ 8 i hi8]
  have hp : (2 : Nat) ^ (32 * (7 - i)) = (2 ^ 32) ^ (8 - 1 - i) := by
    rw [← pow_mul, show 32 * (7 - i) = 32 * (8 - 1 - i) by omega]
  rw [hp]

theorem inter32_entries_le (limbs : List Nat) (hlim : ∀ x ∈ limbs, x < 2 ^ 32) :
    ∀ e ∈ inter32MAC limbs, e ≤ 9797816686278551970 := by
  intro e he
  simp only [inter32MAC, List.mem_map, List.mem_range] at he
  obtain ⟨j, hj, rfl⟩ := he
  by_cases h0 : j = 0
  · simp [h0]
  · rw [if_neg h0]
    have hcolB : ∀ jj < 8,
        ((List.range (8 - 0)).map fun k => 4294967295 * tblAt encTable32L (0 + k) jj).sum
          ≤ 9797816686278551970 := by decide
    have hcolLt : ((List.range (8 - 0)).map fun k =>
        4294967295 * tblAt encTable32L (0 + k) (j - 1)).sum < 2 ^ 64 :=
      lt_of_le_of_lt (hcolB (j - 1) (by omega)) (by norm_num)
    exact le_trans (macCell_eq_sum limbs encTable32L 0 8 (j - 1) hlim hcolLt).2
      (hcolB (j - 1) (by omega))

theorem digits5_eq (v : Nat) (h : v < 58 ^ 5) :
    [v % 2 ^ 32 / 11316496, v % 2 ^ 32 / 195112 % 58, v % 2 ^ 32 / 3364 % 58,
      v % 2 ^ 32 / 58 % 58, v % 2 ^ 32 % 58] = toDigitsBE 58 5 v := by
  have hv : v % 2 ^ 32 = v := Nat.mod_eq_of_lt (lt_of_lt_of_le h (by norm_num))
  have h4 : v / 11316496 < 58 := by
    apply Nat.div_lt_of_lt_mul
    calc v < 58 ^ 5 := h
      _ = 11316496 * 58 := by norm_num
  rw [hv,
    show toDigitsBE 58 5 v = [v / 58 ^ 4 % 58, v / 58 ^ 3 % 58, v / 58 ^ 2 % 58,
      v / 58 ^ 1 % 58, v / 58 ^ 0 % 58] from rfl,
    show (58 : Nat) ^ 4 = 11316496 by norm_num, show (58 : Nat) ^ 3 = 195112 by norm_num,
    show (58 : Nat) ^ 2 = 3364 by norm_num, show (58 : Nat) ^ 1 = 58 by norm_num,
    show (58 : Nat) ^ 0 = 1 by norm_num, Nat.div_one, Nat.mod_eq_of_lt h4]

theorem rawDigits_eq : ∀ inter : List Nat, (∀ v ∈ inter, v < 58 ^ 5) →
    rawDigits inter = inter.flatMap (toDigitsBE 58 5) := by
  intro inter
  induction inter with
  | nil => intro _; rfl
  | cons v rest ih =>
    intro h
    unfold rawDigits
    rw [List.flatMap_cons]
    show _ ++ rawDigits rest = _
    rw [List.flatMap_cons]
    congr 1
    · exact digits5_eq v (h v (by simp))
    · exact ih (fun x hx => h x (by simp [hx]))

theorem rawDigits_toDigits (X : Nat) :
    rawDigits (toDigitsBE r1Div 9 X) = toDigitsBE 58 45 X := by
  have hD : (58 : Nat) ^ 5 = r1Div := by norm_num [r1Div]
  have hdig : ∀ v ∈ toDigitsBE r1Div 9 X, v < 58 ^ 5 := by
    rw [hD]; exact toDigitsBE_lt_base r1Div 9 (by norm_num [r1Div]) X
  rw [rawDigits_eq _ hdig, show (45 : Nat) = 5 * 9 from rfl, toDigitsBE_grouping 58 5 9 X, hD]

theorem raw58of32_eq (inb : List Nat) (hl : inb.length = 32) (hb : ∀ x ∈ inb, x < 256) :
    raw58of32 inb = toDigitsBE 58 45 (ofDigitsBE 256 inb) := by
  have hval : ofDigitsBE r1Div (inter32MAC (limbsOf inb 8)) = ofDigitsBE 256 inb :=
    inter32_X inb hl hb
  have hlen : (inter32MAC (limbsOf inb 8)).length = 9 := by simp [inter32MAC]
  have hne : inter32MAC (limbsOf inb 8) ≠ [] := by
    intro hcon
    rw [hcon] at hlen
    simp at hlen
  obtain ⟨hcn, _⟩ := carryNorm_spec r1Div (2 ^ 64) 9797816686278551970
    (by norm_num [r1Div]) (by decide) _ hne
    (inter32_entries_le _ (limbsOf_lt inb 8 hb))
  unfold raw58of32
  rw [hcn, hlen, hval]
  have hXlt : ofDigitsBE 256 inb < r1Div ^ 9 := by
    have h1 : ofDigitsBE 256 inb < 256 ^ 32 := by
      have := ofDigitsBE_lt 256 inb hb
      rwa [hl] at this
    calc ofDigitsBE 256 inb < 256 ^ 32 := h1
      _ ≤ r1Div ^ 9 := by decide
  have hhead : ofDigitsBE 256 inb / r1Div ^ 8 < r1Div := by
    apply Nat.div_lt_of_lt_mul
    calc ofDigitsBE 256 inb < r1Div ^ 9 := hXlt
      _ = r1Div ^ 8 * r1Div := by rw [← pow_succ]
  rw [show (9 : Nat) - 1 = 8 from rfl]
  rw [show ofDigitsBE 256 inb / r1Div ^ 8 :: toDigitsBE r1Div 8 (ofDigitsBE 256 inb)
      = toDigitsBE r1Div 9 (ofDigitsBE 256 inb) by
    rw [show toDigitsBE r1Div 9 (ofDigitsBE 256 inb)
        = ofDigitsBE 256 inb / r1Div ^ 8 % r1Div
          :: toDigitsBE r1Div 8 (ofDigitsBE 256 inb) from rfl,
      Nat.mod_eq_of_lt hhead]]
  exact rawDigits_toDigits (ofDigitsBE 256 inb)

theorem getD_drop_eq (xs : List Nat) (s i : Nat) : (xs.drop s).getD i 0 = xs.getD (s + i) 0 := by
  rw [List.getD_eq_getElem?_getD, List.getD_eq_getElem?_getD, List.getElem?_drop]

/-- Go `Encode32` output characterized on the digit expansion: it maps
the base58 digits of the input value through the alphabet, after
skipping `rawLeading0s - inLeading0s` zero digits. -/
theorem encode32_eq (inb : List Nat) (hl : inb.length = 32) (hb : ∀ x ∈ inb, x < 256) :
    encode32 inb = ((toDigitsBE 58 45 (ofDigitsBE 256 inb)).drop
        (lzCount (toDigitsBE 58 45 (ofDigitsBE 256 inb)) - lzCount inb)).map
      (fun d => alphabetL.getD d 0) := by
  have hdef : encode32 inb = (List.range (45 - (lzCount (raw58of32 inb) - lzCount inb))).map
      (fun i => alphabetL.getD
        ((raw58of32 inb).getD (i + (lzCount (raw58of32 inb) - lzCount inb)) 0) 0) := rfl
  rw [hdef, raw58of32_eq inb hl hb]
  have hTlen : (toDigitsBE 58 45 (ofDigitsBE 256 inb)).length = 45 := toDigitsBE_length _ _ _
  set T := toDigitsBE 58 45 (ofDigitsBE 256 inb) with hT
  set skip := lzCount T - lzCount inb with hskip
  have hdlen : (T.drop skip).length = 45 - skip := by rw [List.length_drop, hTlen]
  rw [← hdlen, ← range_map_getD (fun d => alphabetL.getD d 0) (T.drop skip)]
  refine List.map_congr_left (fun i hi => ?_)
  rw [getD_drop_eq, Nat.add_comm skip i]

theorem pow_chain32 : ∀ k, k ≤ 32 → 256 ^ (32 - k) ≤ 58 ^ (44 - k) := by
  intro k
  induction k with
  | zero => intro _; decide
  | succ k ih =>
    intro hk
    have h1 := ih (by omega)
    have e1 : 32 - k = 32 - (k + 1) + 1 := by omega
    have e2 : 44 - k = 44 - (k + 1) + 1 := by omega
    rw [e1, e2, pow_succ, pow_succ] at h1
    have h2 : 256 ^ (32 - (k + 1)) * 256 ≤ 58 ^ (44 - (k + 1)) * 256 :=
      le_trans h1 (Nat.mul_le_mul_left _ (by norm_num))
    exact Nat.le_of_mul_le_mul_right h2 (by norm_num)

theorem pow_chain64 : ∀ k, k ≤ 64 → 256 ^ (64 - k) ≤ 58 ^ (88 - k) := by
  intro k
  induction k with
  | zero => intro _; decide
  | succ k ih =>
    intro hk
    have h1 := ih (by omega)
    have e1 : 64 - k = 64 - (k + 1) + 1 := by omega
    have e2 : 88 - k = 88 - (k + 1) + 1 := by omega
    rw [e1, e2, pow_succ, pow_succ] at h1
    have h2 : 256 ^ (64 - (k + 1)) * 256 ≤ 58 ^ (88 - (k + 1)) * 256 :=
      le_trans h1 (Nat.mul_le_mul_left _ (by norm_num))
    exact Nat.le_of_mul_le_mul_right h2 (by norm_num)

/-- For a 32-byte input, the count of leading zero base58 digits exceeds
the count of leading zero bytes by at least 1 and at most 13 — the
log-base comparison of the Go comment, with both inequalities. -/
theorem lz_window32 (inb : List Nat) (hl : inb.length = 32) (hb : ∀ x ∈ inb, x < 256) :
    lzCount inb + 1 ≤ lzCount (toDigitsBE 58 45 (ofDigitsBE 256 inb))
      ∧ lzCount (toDigitsBE 58 45 (ofDigitsBE 256 inb)) ≤ 13 + lzCount inb := by
  set X := ofDigitsBE 256 inb with hX
  set z := lzCount inb with hz
  have hXlt : X < 256 ^ 32 := by
    have := ofDigitsBE_lt 256 inb hb
    rwa [hl] at this
  have hX58 : X < 58 ^ 45 := lt_of_lt_of_le hXlt (by decide)
  have hbytes : toDigitsBE 256 32 X = inb := by
    have := toDigitsBE_ofDigitsBE 256 inb hb
    rwa [hl] at this
  have hz32 : z ≤ 32 := by
    have := lzCount_le_length inb
    omega
  have hzle : z ≤ lzCount (toDigitsBE 256 32 X) := by rw [hbytes]
  have hXz : X < 256 ^ (32 - z) :=
    (lz_toDigitsBE 256 (by norm_num) z 32 X hz32 hXlt).mp hzle
  constructor
  · have hchain : X < 58 ^ (45 - (z + 1)) := by
      have h1 : (256 : Nat) ^ (32 - z) ≤ 58 ^ (44 - z) := pow_chain32 z hz32
      have h2 : 45 - (z + 1) = 44 - z := by omega
      rw [h2]
      exact lt_of_lt_of_le hXz h1
    exact (lz_toDigitsBE 58 (by norm_num) (z + 1) 45 X (by omega) hX58).mpr hchain
  · by_cases hz31 : z = 32
    · have := lzCount_le_length (toDigitsBE 58 45 X)
      rw [toDigitsBE_length] at this
      omega
    · have hzlt : z < 32 := by omega
      have hnb : ¬ (z + 1 ≤ lzCount (toDigitsBE 256 32 X)) := by
        rw [hbytes]
        omega
      rw [lz_toDigitsBE 256 (by norm_num) (z + 1) 32 X (by omega) hXlt] at hnb
      have hge : 256 ^ (32 - (z + 1)) ≤ X := by omega
      have hge58 : 58 ^ (31 - z) ≤ X := by
        have hA : (58 : Nat) ^ (32 - (z + 1)) ≤ 256 ^ (32 - (z + 1)) :=
          Nat.pow_le_pow_left (by norm_num) _
        have h2 : 32 - (z + 1) = 31 - z := by omega
        rw [h2] at hA
        exact le_trans hA (h2 ▸ hge)
      by_contra hcon
      have h14 : 14 + z ≤ lzCount (toDigitsBE 58 45 X) := by omega
      have := (lz_toDigitsBE 58 (by norm_num) (14 + z) 45 X (by omega) hX58).mp h14
      have h3 : 45 - (14 + z) = 31 - z := by omega
      rw [h3] at this
      omega

/-- Length bounds of the Go `Encode32` output, and no underflow in the
`skip` subtraction. -/
theorem encode32_bounds (inb : List Nat) (hl : inb.length = 32) (hb : ∀ x ∈ inb, x < 256) :
    32 ≤ (encode32 inb).length ∧ (encode32 inb).length ≤ 44
      ∧ lzCount inb ≤ lzCount (raw58of32 inb) := by
  have hwin := lz_window32 inb hl hb
  have hz32 : lzCount inb ≤ 32 := by
    have := lzCount_le_length inb
    omega
  have hlzT : lzCount (toDigitsBE 58 45 (ofDigitsBE 256 inb)) ≤ 45 := by
    have := lzCount_le_length (toDigitsBE 58 45 (ofDigitsBE 256 inb))
    rw [toDigitsBE_length] at this
    exact this
  have hlen : (encode32 inb).length
      = 45 - (lzCount (toDigitsBE 58 45 (ofDigitsBE 256 inb)) - lzCount inb) := by
    rw [encode32_eq inb hl hb, List.length_map, List.length_drop, toDigitsBE_length]
  have hraw : raw58of32 inb = toDigitsBE 58 45 (ofDigitsBE 256 inb) := raw58of32_eq inb hl hb
  refine ⟨by omega, by omega, ?_⟩
  rw [hraw]
  omega

theorem ofDigits_peel0 (D C : Nat) (f : Nat → Nat) (hf : f 0 = 0) :
    ofDigitsBE D ((List.range (C + 1)).map f)
      = ∑ j in Finset.range C, f (j + 1) * D ^ (C - 1 - j) := by
  rw [ofDigitsBE_range_map, Finset.sum_range_succ', hf]
  simp only [zero_mul, add_zero]
  refine Finset.sum_congr rfl (fun j _ => ?_)
  have h2 : C + 1 - 1 - (j + 1) = C - 1 - j := by omega
  rw [h2]

theorem sum_range_split (m n : Nat) (f : Nat → Nat) :
    ∑ i in Finset.range (m + n), f i
      = (∑ i in Finset.range m, f i) + ∑ k in Finset.range n, f (m + k) := by
  induction n with
  | zero => simp
  | succ n ih =>
    rw [show m + (n + 1) = (m + n) + 1 from rfl, Finset.sum_range_succ, ih,
      Finset.sum_range_succ, add_assoc]

theorem inter64MACa_getD (limbs : List Nat) (j : Nat) (hj : j < 18) :
    (inter64MACa limbs).getD j 0
      = if j = 0 then 0 else macCell limbs encTable64L 0 8 (j - 1) := by
  unfold inter64MACa
  rw [range_map_getD_lt _ 18 j hj]

theorem miniRed64_getD (l : List Nat) (j : Nat) (hj : j < 18) (h15 : j ≠ 15) (h16 : j ≠ 16) :
    (miniRed64 l).getD j 0 = l.getD j 0 := by
  unfold miniRed64
  rw [range_map_getD_lt _ 18 j hj, if_neg h15, if_neg h16]

theorem miniRed64_getD15 (l : List Nat) :
    (miniRed64 l).getD 15 0 = (l.getD 15 0 + l.getD 16 0 / r1Div) % 2 ^ 64 := by
  unfold miniRed64
  rw [range_map_getD_lt _ 18 15 (by norm_num)]
  simp

theorem miniRed64_getD16 (l : List Nat) :
    (miniRed64 l).getD 16 0 = l.getD 16 0 % r1Div := by
  unfold miniRed64
  rw [range_map_getD_lt _ 18 16 (by norm_num)]
  simp

/-- Value identity of the `Encode64` multiply-accumulate, including the
mid-pass mini-reduction: the final cell list represents, in base 58^5,
the value of all sixteen limbs. -/
theorem inter64_value (limbs : List Nat) (hlim : ∀ x ∈ limbs, x < 2 ^ 32) :
    ofDigitsBE r1Div (inter64MAC limbs)
      = ∑ i in Finset.range 16, limbs.getD i 0 * 2 ^ (32 * (15 - i)) := by
  have hcolA : ∀ j < 17,
      ((List.range (8 - 0)).map fun k => 4294967295 * tblAt encTable64L (0 + k) j).sum
        < 2 ^ 64 := by decide
  have hcolB : ∀ j < 17,
      ((List.range (16 - 8)).map fun k => 4294967295 * tblAt encTable64L (8 + k) j).sum
        < 2 ^ 64 := by decide
  have hbElse : ∀ j < 17, j ≠ 14 → j ≠ 15 →
      ((List.range (8 - 0)).map fun k => 4294967295 * tblAt encTable64L (0 + k) j).sum
        + ((List.range (16 - 8)).map fun k => 4294967295 * tblAt encTable64L (8 + k) j).sum
        ≤ 16803551296732646175 := by decide
  have hb14 : ((List.range (8 - 0)).map fun k => 4294967295 * tblAt encTable64L (0 + k) 14).sum
        + ((List.range (8 - 0)).map fun k => 4294967295 * tblAt encTable64L (0 + k) 15).sum / r1Div
        + ((List.range (16 - 8)).map fun k => 4294967295 * tblAt encTable64L (8 + k) 14).sum
        ≤ 16803551296732646175 := by decide
  have hb15 : r1Div - 1
        + ((List.range (16 - 8)).map fun k => 4294967295 * tblAt encTable64L (8 + k) 15).sum
        ≤ 16803551296732646175 := by decide
  have hmacA := fun (j : Nat) (hj : j < 17) =>
    macCell_eq_sum limbs encTable64L 0 8 j hlim (hcolA j hj)
  have hmacB := fun (j : Nat) (hj : j < 17) =>
    macCell_eq_sum limbs encTable64L 8 16 j hlim (hcolB j hj)
  -- entry values of the reduced first-pass array, by column index
  have haval : ∀ j < 17, (miniRed64 (inter64MACa limbs)).getD (j + 1) 0
      = if j = 14 then
          (macCell limbs encTable64L 0 8 14 + macCell limbs encTable64L 0 8 15 / r1Div) % 2 ^ 64
        else if j = 15 then macCell limbs encTable64L 0 8 15 % r1Div
        else macCell limbs encTable64L 0 8 j := by
    intro j hj
    by_cases h14 : j = 14
    · subst h14
      rw [if_pos rfl, miniRed64_getD15, inter64MACa_getD _ 15 (by norm_num),
        inter64MACa_getD _ 16 (by norm_num)]
      simp
    · by_cases h15 : j = 15
      · subst h15
        rw [if_neg (by norm_num), if_pos rfl, miniRed64_getD16,
          inter64MACa_getD _ 16 (by norm_num)]
        simp
      · rw [if_neg h14, if_neg h15,
          miniRed64_getD _ (j + 1) (by omega) (by omega) (by omega),
          inter64MACa_getD _ (j + 1) (by omega), if_neg (by omega)]
        simp
  -- bound on each final cell before its wrap
  have hbnd : ∀ j < 17, (miniRed64 (inter64MACa limbs)).getD (j + 1) 0
      + macCell limbs encTable64L 8 16 j ≤ 16803551296732646175 := by
    intro j hj
    have hB := (hmacB j hj).2
    rw [haval j hj]
    by_cases h14 : j = 14
    · subst h14
      rw [if_pos rfl]
      have h1 : (macCell limbs encTable64L 0 8 14
            + macCell limbs encTable64L 0 8 15 / r1Div) % 2 ^ 64
          ≤ macCell limbs encTable64L 0 8 14 + macCell limbs encTable64L 0 8 15 / r1Div :=
        Nat.mod_le _ _
      have h2 := (hmacA 14 (by norm_num)).2
      have h3 : macCell limbs encTable64L 0 8 15 / r1Div
          ≤ ((List.range (8 - 0)).map fun k =>
            4294967295 * tblAt encTable64L (0 + k) 15).sum / r1Div :=
        Nat.div_le_div_right (hmacA 15 (by norm_num)).2
      omega
    · by_cases h15 : j = 15
      · subst h15
        rw [if_neg (by norm_num), if_pos rfl]
        have h1 : macCell limbs encTable64L 0 8 15 % r1Div ≤ r1Div - 1 := by
          have := Nat.mod_lt (macCell limbs encTable64L 0 8 15)
            (show 0 < r1Div by norm_num [r1Div])
          omega
        omega
      · rw [if_neg h14, if_neg h15]
        have h2 := (hmacA j hj).2
        have h3 := hbElse j hj h14 h15
        omega
  -- express the final array value
  have ha0 : (miniRed64 (inter64MACa limbs)).getD 0 0 = 0 := by
    rw [miniRed64_getD _ 0 (by norm_num) (by norm_num) (by norm_num),
      inter64MACa_getD _ 0 (by norm_num)]
    simp
  rw [show inter64MAC limbs = (List.range 18).map (fun j =>
      if j = 0 then (miniRed64 (inter64MACa limbs)).getD 0 0
      else ((miniRed64 (inter64MACa limbs)).getD j 0
        + macCell limbs encTable64L 8 16 (j - 1)) % 2 ^ 64) from rfl, ha0]
  rw [show (18 : Nat) = 17 + 1 from rfl,
    ofDigits_peel0 r1Div 17 _ (by simp)]
  have hstep : ∀ j ∈ Finset.range 17,
      (if j + 1 = 0 then 0
        else ((miniRed64 (inter64MACa limbs)).getD (j + 1) 0
          + macCell limbs encTable64L 8 16 (j + 1 - 1)) % 2 ^ 64) * r1Div ^ (17 - 1 - j)
      = ((miniRed64 (inter64MACa limbs)).getD (j + 1) 0
          + macCell limbs encTable64L 8 16 j) * r1Div ^ (17 - 1 - j) := by
    intro j hj
    have hj17 := Finset.mem_range.mp hj
    rw [if_neg (Nat.succ_ne_zero j), Nat.add_sub_cancel,
      Nat.mod_eq_of_lt (lt_of_le_of_lt (hbnd j hj17) (by norm_num))]
  rw [Finset.sum_congr rfl hstep]
  simp_rw [add_mul, Finset.sum_add_distrib]
  -- second summand: rows 8..15
  have hpart2 : ∑ j in Finset.range 17,
      macCell limbs encTable64L 8 16 j * r1Div ^ (17 - 1 - j)
      = ∑ k in Finset.range 8, limbs.getD (8 + k) 0 * 2 ^ (32 * (15 - (8 + k))) := by
    have hstep2 : ∀ j ∈ Finset.range 17,
        macCell limbs encTable64L 8 16 j * r1Div ^ (17 - 1 - j)
        = (∑ k in Finset.range 8, limbs.getD (8 + k) 0 * tblAt encTable64L (8 + k) j)
            * r1Div ^ (17 - 1 - j) := by
      intro j hj
      rw [(hmacB j (Finset.mem_range.mp hj)).1, list_range_map_sum]
    rw [Finset.sum_congr rfl hstep2,
      sum_exchange 8 17 (fun k => limbs.getD (8 + k) 0)
        (fun k j => tblAt encTable64L (8 + k) j) (fun j => r1Div ^ (17 - 1 - j))]
    have hrowB : ∀ k < 8,
        ((List.range 17).map fun j => tblAt encTable64L (8 + k) j * r1Div ^ (17 - 1 - j)).sum
          = 2 ^ (32 * (15 - (8 + k))) := by decide
    refine Finset.sum_congr rfl (fun k hk => ?_)
    refine congrArg (fun s => limbs.getD (8 + k) 0 * s) ?_
    rw [← list_range_map_sum]
    exact hrowB k (Finset.mem_range.mp hk)
  -- first summand: undo the mini-reduction, then rows 0..7
  have hmove : ∑ j in Finset.range 17,
      (miniRed64 (inter64MACa limbs)).getD (j + 1) 0 * r1Div ^ (17 - 1 - j)
      = ∑ j in Finset.range 17,
        (inter64MACa limbs).getD (j + 1) 0 * r1Div ^ (17 - 1 - j) := by
    have h14mem : (14 : Nat) ∈ Finset.range 17 := by decide
    have h15mem : (15 : Nat) ∈ (Finset.range 17).erase 14 := by decide
    rw [← Finset.sum_erase_add (Finset.range 17) _ h14mem,
      ← Finset.sum_erase_add ((Finset.range 17).erase 14) _ h15mem,
      ← Finset.sum_erase_add (Finset.range 17) _ h14mem,
      ← Finset.sum_erase_add ((Finset.range 17).erase 14) _ h15mem]
    have hcongr : ∑ j in ((Finset.range 17).erase 14).erase 15,
        (miniRed64 (inter64MACa limbs)).getD (j + 1) 0 * r1Div ^ (17 - 1 - j)
        = ∑ j in ((Finset.range 17).erase 14).erase 15,
          (inter64MACa limbs).getD (j + 1) 0 * r1Div ^ (17 - 1 - j) := by
      refine Finset.sum_congr rfl (fun j hj => ?_)
      have hj15 := (Finset.mem_erase.mp hj).1
      have hj14 := (Finset.mem_erase.mp (Finset.mem_erase.mp hj).2).1
      have hj17 := Finset.mem_range.mp (Finset.mem_erase.mp (Finset.mem_erase.mp hj).2).2
      rw [miniRed64_getD _ (j + 1) (by omega) (by omega) (by omega)]
    have hA15 := (hmacA 14 (by norm_num)).2
    have hA16 := (hmacA 15 (by norm_num)).2
    have hmodOK : (inter64MACa limbs).getD 15 0 + (inter64MACa limbs).getD 16 0 / r1Div
        < 2 ^ 64 := by
      rw [inter64MACa_getD _ 15 (by norm_num), inter64MACa_getD _ 16 (by norm_num)]
      simp only [if_neg (by norm_num : (15 : Nat) ≠ 0), if_neg (by norm_num : (16 : Nat) ≠ 0)]
      norm_num
      have h3 : macCell limbs encTable64L 0 8 15 / r1Div
          ≤ ((List.range (8 - 0)).map fun k =>
            4294967295 * tblAt encTable64L (0 + k) 15).sum / r1Div :=
        Nat.div_le_div_right hA16
      have h4 := hb14
      omega
    have hkey : (miniRed64 (inter64MACa limbs)).getD (15 + 1) 0 * r1Div ^ (17 - 1 - 15)
          + (miniRed64 (inter64MACa limbs)).getD (14 + 1) 0 * r1Div ^ (17 - 1 - 14)
        = (inter64MACa limbs).getD (15 + 1) 0 * r1Div ^ (17 - 1 - 15)
          + (inter64MACa limbs).getD (14 + 1) 0 * r1Div ^ (17 - 1 - 14) := by
      rw [show (15 : Nat) + 1 = 16 from rfl, show (14 : Nat) + 1 = 15 from rfl,
        show (17 : Nat) - 1 - 15 = 1 from rfl, show (17 : Nat) - 1 - 14 = 2 from rfl,
        miniRed64_getD15, miniRed64_getD16, Nat.mod_eq_of_lt hmodOK]
      have hdm := Nat.div_add_mod ((inter64MACa limbs).getD 16 0) r1Div
      calc (inter64MACa limbs).getD 16 0 % r1Div * r1Div ^ 1
            + ((inter64MACa limbs).getD 15 0 + (inter64MACa limbs).getD 16 0 / r1Div)
              * r1Div ^ 2
          = (r1Div * ((inter64MACa limbs).getD 16 0 / r1Div)
              + (inter64MACa limbs).getD 16 0 % r1Div) * r1Div ^ 1
            + (inter64MACa limbs).getD 15 0 * r1Div ^ 2 := by ring
        _ = (inter64MACa limbs).getD 16 0 * r1Div ^ 1
            + (inter64MACa limbs).getD 15 0 * r1Div ^ 2 := by rw [hdm]
    rw [hcongr]
    linarith [hkey]
  rw [hmove, hpart2]
  -- first summand via the row identities of rows 0..7
  have hpart1 : ∑ j in Finset.range 17,
      (inter64MACa limbs).getD (j + 1) 0 * r1Div ^ (17 - 1 - j)
      = ∑ i in Finset.range 8, limbs.getD i 0 * 2 ^ (32 * (15 - i)) := by
    have hstep1 : ∀ j ∈ Finset.range 17,
        (inter64MACa limbs).getD (j + 1) 0 * r1Div ^ (17 - 1 - j)
        = (∑ i in Finset.range 8, limbs.getD i 0 * tblAt encTable64L i j)
            * r1Div ^ (17 - 1 - j) := by
      intro j hj
      have hj17 := Finset.mem_range.mp hj
      rw [inter64MACa_getD _ (j + 1) (by omega), if_neg (by omega), Nat.add_sub_cancel,
        (hmacA j hj17).1, list_range_map_sum]
      refine congrArg (fun s => s * r1Div ^ (17 - 1 - j)) ?_
      refine Finset.sum_congr (by norm_num) (fun k hk => ?_)
      rw [Nat.zero_add]
    rw [Finset.sum_congr rfl hstep1,
      sum_exchange 8 17 (fun i => limbs.getD i 0)
        (fun i j => tblAt encTable64L i j) (fun j => r1Div ^ (17 - 1 - j))]
    have hrowA : ∀ i < 8,
        ((List.range 17).map fun j => tblAt encTable64L i j * r1Div ^ (17 - 1 - j)).sum
          = 2 ^ (32 * (15 - i)) := by decide
    refine Finset.sum_congr rfl (fun i hi => ?_)
    refine congrArg (fun s => limbs.getD i 0 * s) ?_
    rw [← list_range_map_sum]
    exact hrowA i (Finset.mem_range.mp hi)
  rw [hpart1, show (16 : Nat) = 8 + 8 from rfl, sum_range_split 8 8]

theorem inter64_X (inb : List Nat) (hl : inb.length = 64) (hb : ∀ x ∈ inb, x < 256) :
    ofDigitsBE r1Div (inter64MAC (limbsOf inb 16)) = ofDigitsBE 256 inb := by
  rw [inter64_value _ (limbsOf_lt inb 16 hb), ← limbsOf_value 16 inb (by omega)]
  conv_rhs => rw [show limbsOf inb 16 = (List.range 16).map fun i =>
    beUint32 (inb.getD (4 * i) 0) (inb.getD (4 * i + 1) 0)
      (inb.getD (4 * i + 2) 0) (inb.getD (4 * i + 3) 0) from rfl]
  rw [ofDigitsBE_range_map]
  refine Finset.sum_congr rfl (fun i hi => ?_)
  have hi16 := Finset.mem_range.mp hi
  rw [show (limbsOf inb 16).getD i 0 = beUint32 (inb.getD (4 * i) 0) (inb.getD (4 * i + 1) 0)
      (inb.getD (4 * i + 2) 0) (inb.getD (4 * i + 3) 0) from range_map_getD_lt _ 16 i hi16]
  have hp : (2 : Nat) ^ (32 * (15 - i)) = (2 ^ 32) ^ (16 - 1 - i) := by
    rw [← pow_mul, show 32 * (15 - i) = 32 * (16 - 1 - i) by omega]
  rw [hp]

theorem inter64_entries_le (limbs : List Nat) (hlim : ∀ x ∈ limbs, x < 2 ^ 32) :
    ∀ e ∈ inter64MAC limbs, e ≤ 16803551296732646175 := by
  have hcolA : ∀ j < 17,
      ((List.range (8 - 0)).map fun k => 4294967295 * tblAt encTable64L (0 + k) j).sum
        < 2 ^ 64 := by decide
  have hcolB : ∀ j < 17,
      ((List.range (16 - 8)).map fun k => 4294967295 * tblAt encTable64L (8 + k) j).sum
        < 2 ^ 64 := by decide
  have hbElse : ∀ j < 17, j ≠ 14 → j ≠ 15 →
      ((List.range (8 - 0)).map fun k => 4294967295 * tblAt encTable64L (0 + k) j).sum
        + ((List.range (16 - 8)).map fun k => 4294967295 * tblAt encTable64L (8 + k) j).sum
        ≤ 16803551296732646175 := by decide
  have hb14 : ((List.range (8 - 0)).map fun k => 4294967295 * tblAt encTable64L (0 + k) 14).sum
        + ((List.range (8 - 0)).map fun k => 4294967295 * tblAt encTable64L (0 + k) 15).sum / r1Div
        + ((List.range (16 - 8)).map fun k => 4294967295 * tblAt encTable64L (8 + k) 14).sum
        ≤ 16803551296732646175 := by decide
  have hb15 : r1Div - 1
        + ((List.range (16 - 8)).map fun k => 4294967295 * tblAt encTable64L (8 + k) 15).sum
        ≤ 16803551296732646175 := by decide
  have hmacA := fun (j : Nat) (hj : j < 17) =>
    macCell_eq_sum limbs encTable64L 0 8 j hlim (hcolA j hj)
  have hmacB := fun (j : Nat) (hj : j < 17) =>
    macCell_eq_sum limbs encTable64L 8 16 j hlim (hcolB j hj)
  have haval : ∀ j < 17, (miniRed64 (inter64MACa limbs)).getD (j + 1) 0
      = if j = 14 then
          (macCell limbs encTable64L 0 8 14 + macCell limbs encTable64L 0 8 15 / r1Div) % 2 ^ 64
        else if j = 15 then macCell limbs encTable64L 0 8 15 % r1Div
        else macCell limbs encTable64L 0 8 j := by
    intro j hj
    by_cases h14 : j = 14
    · subst h14
      rw [if_pos rfl, miniRed64_getD15, inter64MACa_getD _ 15 (by norm_num),
        inter64MACa_getD _ 16 (by norm_num)]
      simp
    · by_cases h15 : j = 15
      · subst h15
        rw [if_neg (by norm_num), if_pos rfl, miniRed64_getD16,
          inter64MACa_getD _ 16 (by norm_num)]
        simp
      · rw [if_neg h14, if_neg h15,
          miniRed64_getD _ (j + 1) (by omega) (by omega) (by omega),
          inter64MACa_getD _ (j + 1) (by omega), if_neg (by omega)]
        simp
  have hbnd : ∀ j < 17, (miniRed64 (inter64MACa limbs)).getD (j + 1) 0
      + macCell limbs encTable64L 8 16 j ≤ 16803551296732646175 := by
    intro j hj
    have hB := (hmacB j hj).2
    rw [haval j hj]
    by_cases h14 : j = 14
    · subst h14
      rw [if_pos rfl]
      have h1 : (macCell limbs encTable64L 0 8 14
            + macCell limbs encTable64L 0 8 15 / r1Div) % 2 ^ 64
          ≤ macCell limbs encTable64L 0 8 14 + macCell limbs encTable64L 0 8 15 / r1Div :=
        Nat.mod_le _ _
      have h2 := (hmacA 14 (by norm_num)).2
      have h3 : macCell limbs encTable64L 0 8 15 / r1Div
          ≤ ((List.range (8 - 0)).map fun k =>
            4294967295 * tblAt encTable64L (0 + k) 15).sum / r1Div :=
        Nat.div_le_div_right (hmacA 15 (by norm_num)).2
      omega
    · by_cases h15 : j = 15
      · subst h15
        rw [if_neg (by norm_num), if_pos rfl]
        have h1 : macCell limbs encTable64L 0 8 15 % r1Div ≤ r1Div - 1 := by
          have := Nat.mod_lt (macCell limbs encTable64L 0 8 15)
            (show 0 < r1Div by norm_num [r1Div])
          omega
        omega
      · rw [if_neg h14, if_neg h15]
        have h2 := (hmacA j hj).2
        have h3 := hbElse j hj h14 h15
        omega
  intro e he
  simp only [inter64MAC, List.mem_map, List.mem_range] at he
  obtain ⟨j, hj, rfl⟩ := he
  by_cases h0 : j = 0
  · simp only [h0, if_pos rfl]
    rw [miniRed64_getD _ 0 (by norm_num) (by norm_num) (by norm_num),
      inter64MACa_getD _ 0 (by norm_num)]
    simp
  · rw [if_neg h0]
    have hj1 : j - 1 < 17 := by omega
    have hb1 := hbnd (j - 1) hj1
    have hjj : j - 1 + 1 = j := by omega
    rw [hjj] at hb1
    exact le_trans (Nat.mod_le _ _) hb1

theorem rawDigits_toDigits64 (X : Nat) :
    rawDigits (toDigitsBE r1Div 18 X) = toDigitsBE 58 90 X := by
  have hD : (58 : Nat) ^ 5 = r1Div := by norm_num [r1Div]
  have hdig : ∀ v ∈ toDigitsBE r1Div 18 X, v < 58 ^ 5 := by
    rw [hD]; exact toDigitsBE_lt_base r1Div 18 (by norm_num [r1Div]) X
  rw [rawDigits_eq _ hdig, show (90 : Nat) = 5 * 18 from rfl, toDigitsBE_grouping 58 5 18 X, hD]

theorem raw58of64_eq (inb : List Nat) (hl : inb.length = 64) (hb : ∀ x ∈ inb, x < 256) :
    raw58of64 inb = toDigitsBE 58 90 (ofDigitsBE 256 inb) := by
  have hval : ofDigitsBE r1Div (inter64MAC (limbsOf inb 16)) = ofDigitsBE 256 inb :=
    inter64_X inb hl hb
  have hlen : (inter64MAC (limbsOf inb 16)).length = 18 := by simp [inter64MAC]
  have hne : inter64MAC (limbsOf inb 16) ≠ [] := by
    intro hcon
    rw [hcon] at hlen
    simp at hlen
  obtain ⟨hcn, _⟩ := carryNorm_spec r1Div (2 ^ 64) 16803551296732646175
    (by norm_num [r1Div]) (by decide) _ hne
    (inter64_entries_le _ (limbsOf_lt inb 16 hb))
  unfold raw58of64
  rw [hcn, hlen, hval]
  have hXlt : ofDigitsBE 256 inb < r1Div ^ 18 := by
    have h1 : ofDigitsBE 256 inb < 256 ^ 64 := by
      have := ofDigitsBE_lt 256 inb hb
      rwa [hl] at this
    calc ofDigitsBE 256 inb < 256 ^ 64 := h1
      _ ≤ r1Div ^ 18 := by decide
  have hhead : ofDigitsBE 256 inb / r1Div ^ 17 < r1Div := by
    apply Nat.div_lt_of_lt_mul
    calc ofDigitsBE 256 inb < r1Div ^ 18 := hXlt
      _ = r1Div ^ 17 * r1Div := by rw [← pow_succ]
  rw [show (18 : Nat) - 1 = 17 from rfl]
  rw [show ofDigitsBE 256 inb / r1Div ^ 17 :: toDigitsBE r1Div 17 (ofDigitsBE 256 inb)
      = toDigitsBE r1Div 18 (ofDigitsBE 256 inb) by
    rw [show toDigitsBE r1Div 18 (ofDigitsBE 256 inb)
        = ofDigitsBE 256 inb / r1Div ^ 17 % r1Div
          :: toDigitsBE r1Div 17 (ofDigitsBE 256 inb) from rfl,
      Nat.mod_eq_of_lt hhead]]
  exact rawDigits_toDigits64 (ofDigitsBE 256 inb)

/-- Go `Encode64` output characterized on the digit expansion: it maps
the base58 digits of the input value through the alphabet, after
skipping `rawLeading0s - inLeading0s` zero digits. -/
theorem encode64_eq (inb : List Nat) (hl : inb.length = 64) (hb : ∀ x ∈ inb, x < 256) :
    encode64 inb = ((toDigitsBE 58 90 (ofDigitsBE 256 inb)).drop
        (lzCount (toDigitsBE 58 90 (ofDigitsBE 256 inb)) - lzCount inb)).map
      (fun d => alphabetL.getD d 0) := by
  have hdef : encode64 inb = (List.range (90 - (lzCount (raw58of64 inb) - lzCount inb))).map
      (fun i => alphabetL.getD
        ((raw58of64 inb).getD (i + (lzCount (raw58of64 inb) - lzCount inb)) 0) 0) := rfl
  rw [hdef, raw58of64_eq inb hl hb]
  have hTlen : (toDigitsBE 58 90 (ofDigitsBE 256 inb)).length = 90 := toDigitsBE_length _ _ _
  set T := toDigitsBE 58 90 (ofDigitsBE 256 inb) with hT
  set skip := lzCount T - lzCount inb with hskip
  have hdlen : (T.drop skip).length = 90 - skip := by rw [List.length_drop, hTlen]
  rw [← hdlen, ← range_map_getD (fun d => alphabetL.getD d 0) (T.drop skip)]
  refine List.map_congr_left (fun i hi => ?_)
  rw [getD_drop_eq, Nat.add_comm skip i]

/-- For a 64-byte input, the count of leading zero base58 digits exceeds
the count of leading zero bytes by at least 2 and at most 26. -/
theorem lz_window64 (inb : List Nat) (hl : inb.length = 64) (hb : ∀ x ∈ inb, x < 256) :
    lzCount inb + 2 ≤ lzCount (toDigitsBE 58 90 (ofDigitsBE 256 inb))
      ∧ lzCount (toDigitsBE 58 90 (ofDigitsBE 256 inb)) ≤ 26 + lzCount inb := by
  set X := ofDigitsBE 256 inb with hX
  set z := lzCount inb with hz
  have hXlt : X < 256 ^ 64 := by
    have := ofDigitsBE_lt 256 inb hb
    rwa [hl] at this
  have hX58 : X < 58 ^ 90 := lt_of_lt_of_le hXlt (by decide)
  have hbytes : toDigitsBE 256 64 X = inb := by
    have := toDigitsBE_ofDigitsBE 256 inb hb
    rwa [hl] at this
  have hz64 : z ≤ 64 := by
    have := lzCount_le_length inb
    omega
  have hzle : z ≤ lzCount (toDigitsBE 256 64 X) := by rw [hbytes]
  have hXz : X < 256 ^ (64 - z) :=
    (lz_toDigitsBE 256 (by norm_num) z 64 X hz64 hXlt).mp hzle
  constructor
  · have hchain : X < 58 ^ (90 - (z + 2)) := by
      have h1 : (256 : Nat) ^ (64 - z) ≤ 58 ^ (88 - z) := pow_chain64 z hz64
      have h2 : 90 - (z + 2) = 88 - z := by omega
      rw [h2]
      exact lt_of_lt_of_le hXz h1
    exact (lz_toDigitsBE 58 (by norm_num) (z + 2) 90 X (by omega) hX58).mpr hchain
  · by_cases hz63 : z = 64
    · have := lzCount_le_length (toDigitsBE 58 90 X)
      rw [toDigitsBE_length] at this
      omega
    · have hzlt : z < 64 := by omega
      have hnb : ¬ (z + 1 ≤ lzCount (toDigitsBE 256 64 X)) := by
        rw [hbytes]
        omega
      rw [lz_toDigitsBE 256 (by norm_num) (z + 1) 64 X (by omega) hXlt] at hnb
      have hge : 256 ^ (64 - (z + 1)) ≤ X := by omega
      have hge58 : 58 ^ (63 - z) ≤ X := by
        have hA : (58 : Nat) ^ (64 - (z + 1)) ≤ 256 ^ (64 - (z + 1)) :=
          Nat.pow_le_pow_left (by norm_num) _
        have h2 : 64 - (z + 1) = 63 - z := by omega
        rw [h2] at hA
        exact le_trans hA (h2 ▸ hge)
      by_contra hcon
      have h27 : 27 + z ≤ lzCount (toDigitsBE 58 90 X) := by omega
      have := (lz_toDigitsBE 58 (by norm_num) (27 + z) 90 X (by omega) hX58).mp h27
      have h3 : 90 - (27 + z) = 63 - z := by omega
      rw [h3] at this
      omega

/-- Length bounds of the Go `Encode64` output, and no underflow in the
`skip` subtraction. -/
theorem encode64_bounds (inb : List Nat) (hl : inb.length = 64) (hb : ∀ x ∈ inb, x < 256) :
    64 ≤ (encode64 inb).length ∧ (encode64 inb).length ≤ 88
      ∧ lzCount inb ≤ lzCount (raw58of64 inb) := by
  have hwin := lz_window64 inb hl hb
  have hz64 : lzCount inb ≤ 64 := by
    have := lzCount_le_length inb
    omega
  have hlzT : lzCount (toDigitsBE 58 90 (ofDigitsBE 256 inb)) ≤ 90 := by
    have := lzCount_le_length (toDigitsBE 58 90 (ofDigitsBE 256 inb))
    rw [toDigitsBE_length] at this
    exact this
  have hlen : (encode64 inb).length
      = 90 - (lzCount (toDigitsBE 58 90 (ofDigitsBE 256 inb)) - lzCount inb) := by
    rw [encode64_eq inb hl hb, List.length_map, List.length_drop, toDigitsBE_length]
  have hraw : raw58of64 inb = toDigitsBE 58 90 (ofDigitsBE 256 inb) := raw58of64_eq inb hl hb
  refine ⟨by omega, by omega, ?_⟩
  rw [hraw]
  omega

/-! ## Correctness of the decoders -/
theorem getD_ext (l1 l2 : List Nat) (n : Nat) (h1 : l1.length = n) (h2 : l2.length = n)
    (h : ∀ i < n, l1.getD i 0 = l2.getD i 0) : l1 = l2 := by
  apply List.ext_getElem (by omega)
  intro i hi1 hi2
  have hgi := h i (by omega)
  rwa [List.getD_eq_getElem?_getD, List.getD_eq_getElem?_getD,
    List.getElem?_eq_getElem hi1, List.getElem?_eq_getElem hi2] at hgi

theorem toDigitsBE_getD (b : Nat) : ∀ l m n : Nat, m < l →
    (toDigitsBE b l n).getD m 0 = n / b ^ (l - 1 - m) % b := by
  intro l
  induction l with
  | zero => intro m n hm; omega
  | succ l ih =>
    intro m n hm
    rw [show toDigitsBE b (l + 1) n = n / b ^ l % b :: toDigitsBE b l n from rfl]
    cases m with
    | zero => simp
    | succ m =>
      show (toDigitsBE b l n).getD m 0 = _
      rw [ih m n (by omega), show l + 1 - 1 - (m + 1) = l - 1 - m by omega]

theorem toDigitsBE_eq_range_map (b l n : Nat) :
    toDigitsBE b l n = (List.range l).map fun i => n / b ^ (l - 1 - i) % b := by
  refine getD_ext _ _ l (toDigitsBE_length b l n) (by simp) (fun i hi => ?_)
  rw [toDigitsBE_getD b l i n hi, range_map_getD_lt _ l i hi]

theorem replicate_lz_append (l : List Nat) (k : Nat) (hk : k ≤ lzCount l) :
    List.replicate k 0 ++ l.drop k = l := by
  have hkl : k ≤ l.length := le_trans hk (lzCount_le_length l)
  have htake : l.take k = List.replicate k 0 := by
    refine getD_ext _ _ k (by rw [List.length_take]; omega) (by simp) (fun i hi => ?_)
    have h1 : (l.take k).getD i 0 = l.getD i 0 := by
      rw [List.getD_eq_getElem?_getD, List.getD_eq_getElem?_getD, List.getElem?_take]
      simp [hi]
    rw [h1, lzCount_getD_eq_zero l i (by omega),
      show (List.replicate k (0 : Nat)).getD i 0 = 0 by
        rw [List.getD_eq_getElem?_getD, List.getElem?_replicate]
        by_cases hik : i < k <;> simp [hik]]
  rw [← htake, List.take_append_drop]

theorem ofDigitsBE_drop_lz (b : Nat) (l : List Nat) (k : Nat) (hk : k ≤ lzCount l) :
    ofDigitsBE b (l.drop k) = ofDigitsBE b l := by
  conv_rhs => rw [← replicate_lz_append l k hk]
  rw [ofDigitsBE_zero_append]

theorem lzCount_ge : ∀ (l : List Nat) (k : Nat), k ≤ l.length →
    (∀ i < k, l.getD i 0 = 0) → k ≤ lzCount l := by
  intro l
  induction l with
  | nil =>
    intro k hk _
    simp at hk
    simp [hk, lzCount]
  | cons d ds ih =>
    intro k hk h0
    cases k with
    | zero => exact Nat.zero_le _
    | succ k =>
      have hd : d = 0 := h0 0 (by omega)
      subst hd
      have hls : lzCount (0 :: ds) = lzCount ds + 1 := by simp [lzCount]
      rw [hls]
      have := ih k (by simpa using hk) (fun i hi => h0 (i + 1) (by omega))
      omega

theorem lutVal58_lt (c : Nat) (h : lutVal58 c ≠ 255) : lutVal58 c < 58 := by
  unfold lutVal58 at h ⊢
  by_cases hc : c - 49 < 75
  · have hall : ∀ i < 75, inverseLUTL.getD i 255 = 255 ∨ inverseLUTL.getD i 255 < 58 := by
      decide
    rcases hall (c - 49) hc with h1 | h1
    · exact absurd h1 h
    · exact h1
  · rw [List.getD_eq_default] at h
    · exact absurd rfl h
    · have : inverseLUTL.length = 75 := by decide
      omega

theorem lutVal58_ge124 (c : Nat) (h : 124 ≤ c) : lutVal58 c = 255 := by
  unfold lutVal58
  rw [List.getD_eq_default]
  have : inverseLUTL.length = 75 := by decide
  omega

theorem lutLookup_eq_of_ge (c : Nat) (h : 49 ≤ c) : lutLookup c = some (lutVal58 c) := by
  unfold lutLookup lutVal58
  rw [if_neg (by omega)]
  by_cases hc : c - 49 ≤ 74
  · rw [Nat.min_eq_left hc]
  · rw [Nat.min_eq_right (by omega)]
    have h74 : inverseLUTL.getD 74 255 = 255 := by decide
    rw [h74, List.getD_eq_default]
    have : inverseLUTL.length = 75 := by decide
    omega

theorem validateChars_true_iff : ∀ l : List Nat,
    validateChars l = some true ↔ ∀ c ∈ l, 49 ≤ c ∧ lutVal58 c ≠ 255 := by
  intro l
  induction l with
  | nil => simp [validateChars]
  | cons c cs ih =>
    by_cases h49 : 49 ≤ c
    · rw [show validateChars (c :: cs)
          = match lutLookup c with
            | none => none
            | some v => if v = 255 then some false else validateChars cs from rfl,
        lutLookup_eq_of_ge c h49]
      by_cases h255 : lutVal58 c = 255
      · simp [h255, h49]
      · simp only [if_neg h255, List.mem_cons]
        constructor
        · intro h x hx
          rcases hx with rfl | hx
          · exact ⟨h49, h255⟩
          · exact (ih.mp h) x hx
        · intro h
          exact ih.mpr (fun x hx => h x (Or.inr hx))
    · have hlk : lutLookup c = none := by unfold lutLookup; rw [if_pos (by omega)]
      rw [show validateChars (c :: cs)
          = match lutLookup c with
            | none => none
            | some v => if v = 255 then some false else validateChars cs from rfl, hlk]
      simp only [List.mem_cons]
      constructor
      · intro h; exact absurd h (by simp)
      · intro h; exact absurd (h c (Or.inl rfl)).1 h49

theorem alpha_lut : ∀ d < 58, lutVal58 (alphabetL.getD d 0) = d ∧ 49 ≤ alphabetL.getD d 0 := by
  decide

theorem lut_alpha (c : Nat) (h49 : 49 ≤ c) (h255 : lutVal58 c ≠ 255) :
    alphabetL.getD (lutVal58 c) 0 = c := by
  have hc : c < 124 := by
    by_contra hge
    exact h255 (lutVal58_ge124 c (by omega))
  revert h49 h255
  revert hc
  revert c
  decide

theorem alpha_ne49 : ∀ d < 58, d ≠ 0 → alphabetL.getD d 0 ≠ 49 := by decide

theorem recompose5 (X e : Nat) :
    X / 58 ^ (e + 4) % 58 * 11316496 + X / 58 ^ (e + 3) % 58 * 195112
      + X / 58 ^ (e + 2) % 58 * 3364 + X / 58 ^ (e + 1) % 58 * 58 + X / 58 ^ e % 58
      = X / 58 ^ e % 58 ^ 5 := by
  have hj : ∀ j : Nat, X / 58 ^ (e + j) = X / 58 ^ e / 58 ^ j := by
    intro j
    rw [pow_add, ← Nat.div_div_eq_div_mul]
  set Y := X / 58 ^ e with hY
  rw [hj 4, hj 3, hj 2, hj 1]
  have hof := ofDigitsBE_toDigitsBE 58 5 Y
  rw [show toDigitsBE 58 5 Y
      = [Y / 58 ^ 4 % 58, Y / 58 ^ 3 % 58, Y / 58 ^ 2 % 58, Y / 58 ^ 1 % 58,
        Y / 58 ^ 0 % 58] from rfl] at hof
  have hexp : ∀ a b c d e0 : Nat, ofDigitsBE 58 [a, b, c, d, e0]
      = a * 11316496 + b * 195112 + c * 3364 + d * 58 + e0 := by
    intro a b c d e0
    show ((((0 * 58 + a) * 58 + b) * 58 + c) * 58 + d) * 58 + e0 = _
    ring
  rw [hexp] at hof
  rw [pow_zero, Nat.div_one] at hof
  exact hof

theorem interFromRaw_digits (X cnt : Nat) :
    interFromRaw (toDigitsBE 58 (5 * cnt) X) cnt = toDigitsBE r1Div cnt X := by
  refine getD_ext _ _ cnt (by simp [interFromRaw]) (toDigitsBE_length _ _ _) (fun i hi => ?_)
  rw [show interFromRaw (toDigitsBE 58 (5 * cnt) X) cnt
      = (List.range cnt).map (fun i =>
        ((toDigitsBE 58 (5 * cnt) X).getD (5 * i) 0 * 11316496 +
          (toDigitsBE 58 (5 * cnt) X).getD (5 * i + 1) 0 * 195112 +
          (toDigitsBE 58 (5 * cnt) X).getD (5 * i + 2) 0 * 3364 +
          (toDigitsBE 58 (5 * cnt) X).getD (5 * i + 3) 0 * 58 +
          (toDigitsBE 58 (5 * cnt) X).getD (5 * i + 4) 0) % 2 ^ 64) from rfl,
    range_map_getD_lt _ cnt i hi, toDigitsBE_getD r1Div cnt i X hi]
  rw [toDigitsBE_getD 58 (5 * cnt) (5 * i) X (by omega),
    toDigitsBE_getD 58 (5 * cnt) (5 * i + 1) X (by omega),
    toDigitsBE_getD 58 (5 * cnt) (5 * i + 2) X (by omega),
    toDigitsBE_getD 58 (5 * cnt) (5 * i + 3) X (by omega),
    toDigitsBE_getD 58 (5 * cnt) (5 * i + 4) X (by omega)]
  have he0 : 5 * cnt - 1 - (5 * i) = 5 * (cnt - 1 - i) + 4 := by omega
  have he1 : 5 * cnt - 1 - (5 * i + 1) = 5 * (cnt - 1 - i) + 3 := by omega
  have he2 : 5 * cnt - 1 - (5 * i + 2) = 5 * (cnt - 1 - i) + 2 := by omega
  have he3 : 5 * cnt - 1 - (5 * i + 3) = 5 * (cnt - 1 - i) + 1 := by omega
  have he4 : 5 * cnt - 1 - (5 * i + 4) = 5 * (cnt - 1 - i) := by omega
  rw [he0, he1, he2, he3, he4, recompose5 X (5 * (cnt - 1 - i))]
  rw [show r1Div = 58 ^ 5 by norm_num [r1Div], ← pow_mul,
    Nat.mod_eq_of_lt (lt_of_lt_of_le (Nat.mod_lt _ (by norm_num)) (by norm_num))]

theorem decCell_eq_sum (vals : List Nat) (tbl : List (List Nat)) (rows j E : Nat)
    (hv : ∀ x ∈ vals, x ≤ E)
    (hcol : ((List.range rows).map fun i => E * tblAt tbl i j).sum < 2 ^ 64) :
    (((List.range rows).map fun i => vals.getD i 0 * tblAt tbl i j).sum) % 2 ^ 64
        = ((List.range rows).map fun i => vals.getD i 0 * tblAt tbl i j).sum
      ∧ (((List.range rows).map fun i => vals.getD i 0 * tblAt tbl i j).sum) % 2 ^ 64
        ≤ ((List.range rows).map fun i => E * tblAt tbl i j).sum := by
  have hle : ((List.range rows).map fun i => vals.getD i 0 * tblAt tbl i j).sum
      ≤ ((List.range rows).map fun i => E * tblAt tbl i j).sum := by
    refine listsum_le _ _ _ (fun k _ => ?_)
    exact Nat.mul_le_mul_right _ (getD_le_of_all E vals k hv)
  have heq : (((List.range rows).map fun i => vals.getD i 0 * tblAt tbl i j).sum) % 2 ^ 64
      = ((List.range rows).map fun i => vals.getD i 0 * tblAt tbl i j).sum :=
    Nat.mod_eq_of_lt (lt_of_le_of_lt hle hcol)
  refine ⟨heq, ?_⟩
  rw [heq]
  exact hle

theorem dec32_value (inter : List Nat) (hE : ∀ x ∈ inter, x < 58 ^ 5) :
    ofDigitsBE (2 ^ 32) (decBinary inter decTable32L 8 9)
      = ∑ i in Finset.range 9, inter.getD i 0 * r1Div ^ (9 - 1 - i) := by
  have hcol : ∀ j < 8,
      ((List.range 9).map fun i => (58 ^ 5 - 1) * tblAt decTable32L i j).sum < 2 ^ 64 := by
    decide
  have hF : ∀ x ∈ inter, x ≤ 58 ^ 5 - 1 := by
    intro x hx
    have := hE x hx
    omega
  rw [show decBinary inter decTable32L 8 9 = (List.range 8).map (fun j =>
      (((List.range 9).map fun i => inter.getD i 0 * tblAt decTable32L i j).sum) % 2 ^ 64)
    from rfl, ofDigitsBE_range_map]
  have hcell : ∀ j ∈ Finset.range 8,
      (((List.range 9).map fun i => inter.getD i 0 * tblAt decTable32L i j).sum % 2 ^ 64)
          * (2 ^ 32) ^ (8 - 1 - j)
        = (∑ i in Finset.range 9, inter.getD i 0 * tblAt decTable32L i j)
          * (2 ^ 32) ^ (8 - 1 - j) := by
    intro j hj
    rw [(decCell_eq_sum inter decTable32L 9 j (58 ^ 5 - 1) hF
      (hcol j (Finset.mem_range.mp hj))).1, list_range_map_sum]
  rw [Finset.sum_congr rfl hcell,
    sum_exchange 9 8 (fun i => inter.getD i 0) (fun i j => tblAt decTable32L i j)
      (fun j => (2 ^ 32) ^ (8 - 1 - j))]
  have hrow : ∀ i < 9,
      ((List.range 8).map fun j => tblAt decTable32L i j * (2 ^ 32) ^ (8 - 1 - j)).sum
        = r1Div ^ (9 - 1 - i) := by decide
  refine Finset.sum_congr rfl (fun i hi => ?_)
  refine congrArg (fun s => inter.getD i 0 * s) ?_
  rw [← list_range_map_sum]
  exact hrow i (Finset.mem_range.mp hi)

theorem dec32_entries_le (inter : List Nat) (hE : ∀ x ∈ inter, x < 58 ^ 5) :
    ∀ e ∈ decBinary inter decTable32L 8 9, e ≤ 8769783620215767039 := by
  intro e he
  simp only [decBinary, List.mem_map, List.mem_range] at he
  obtain ⟨j, hj, rfl⟩ := he
  have hcolB : ∀ j < 8,
      ((List.range 9).map fun i => (58 ^ 5 - 1) * tblAt decTable32L i j).sum
        ≤ 8769783620215767039 := by decide
  have hF : ∀ x ∈ inter, x ≤ 58 ^ 5 - 1 := by
    intro x hx
    have := hE x hx
    omega
  exact le_trans (decCell_eq_sum inter decTable32L 9 j (58 ^ 5 - 1) hF
    (lt_of_le_of_lt (hcolB j hj) (by norm_num))).2 (hcolB j hj)

theorem dec32_norm (X : Nat) (hX : X < r1Div ^ 9) :
    carryNorm (2 ^ 32) (2 ^ 64) (decBinary (toDigitsBE r1Div 9 X) decTable32L 8 9)
      = X / 2 ^ 224 :: toDigitsBE (2 ^ 32) 7 X := by
  have hlen : (decBinary (toDigitsBE r1Div 9 X) decTable32L 8 9).length = 8 := by
    simp [decBinary]
  have hne : decBinary (toDigitsBE r1Div 9 X) decTable32L 8 9 ≠ [] := by
    intro hcon
    rw [hcon] at hlen
    simp at hlen
  have hdig : ∀ x ∈ toDigitsBE r1Div 9 X, x < 58 ^ 5 := by
    intro x hx
    have := toDigitsBE_lt_base r1Div 9 (by norm_num [r1Div]) X x hx
    calc x < r1Div := this
      _ = 58 ^ 5 := by norm_num [r1Div]
  obtain ⟨hcn, _⟩ := carryNorm_spec (2 ^ 32) (2 ^ 64) 8769783620215767039
    (by norm_num) (by decide) _ hne (dec32_entries_le _ hdig)
  have hval : ofDigitsBE (2 ^ 32) (decBinary (toDigitsBE r1Div 9 X) decTable32L 8 9) = X := by
    rw [dec32_value _ hdig]
    have hstep : ∀ i ∈ Finset.range 9,
        (toDigitsBE r1Div 9 X).getD i 0 * r1Div ^ (9 - 1 - i)
          = X / r1Div ^ (9 - 1 - i) % r1Div * r1Div ^ (9 - 1 - i) := by
      intro i hi
      rw [toDigitsBE_getD r1Div 9 i X (Finset.mem_range.mp hi)]
    rw [Finset.sum_congr rfl hstep]
    have h2 := ofDigitsBE_toDigitsBE r1Div 9 X
    rw [toDigitsBE_eq_range_map, ofDigitsBE_range_map] at h2
    rw [h2, Nat.mod_eq_of_lt hX]
  rw [hcn, hlen, hval, show (8 : Nat) - 1 = 7 from rfl,
    show ((2 : Nat) ^ 32) ^ 7 = 2 ^ 224 by norm_num]

theorem dec64_value (inter : List Nat) (hE : ∀ x ∈ inter, x < 58 ^ 5) :
    ofDigitsBE (2 ^ 32) (decBinary inter decTable64L 16 18)
      = ∑ i in Finset.range 18, inter.getD i 0 * r1Div ^ (18 - 1 - i) := by
  have hcol : ∀ j < 16,
      ((List.range 18).map fun i => (58 ^ 5 - 1) * tblAt decTable64L i j).sum < 2 ^ 64 := by
    decide
  have hF : ∀ x ∈ inter, x ≤ 58 ^ 5 - 1 := by
    intro x hx
    have := hE x hx
    omega
  rw [show decBinary inter decTable64L 16 18 = (List.range 16).map (fun j =>
      (((List.range 18).map fun i => inter.getD i 0 * tblAt decTable64L i j).sum) % 2 ^ 64)
    from rfl, ofDigitsBE_range_map]
  have hcell : ∀ j ∈ Finset.range 16,
      (((List.range 18).map fun i => inter.getD i 0 * tblAt decTable64L i j).sum % 2 ^ 64)
          * (2 ^ 32) ^ (16 - 1 - j)
        = (∑ i in Finset.range 18, inter.getD i 0 * tblAt decTable64L i j)
          * (2 ^ 32) ^ (16 - 1 - j) := by
    intro j hj
    rw [(decCell_eq_sum inter decTable64L 18 j (58 ^ 5 - 1) hF
      (hcol j (Finset.mem_range.mp hj))).1, list_range_map_sum]
  rw [Finset.sum_congr rfl hcell,
    sum_exchange 18 16 (fun i => inter.getD i 0) (fun i j => tblAt decTable64L i j)
      (fun j => (2 ^ 32) ^ (16 - 1 - j))]
  have hrow : ∀ i < 18,
      ((List.range 16).map fun j => tblAt decTable64L i j * (2 ^ 32) ^ (16 - 1 - j)).sum
        = r1Div ^ (18 - 1 - i) := by decide
  refine Finset.sum_congr rfl (fun i hi => ?_)
  refine congrArg (fun s => inter.getD i 0 * s) ?_
  rw [← list_range_map_sum]
  exact hrow i (Finset.mem_range.mp hi)

theorem dec64_entries_le (inter : List Nat) (hE : ∀ x ∈ inter, x < 58 ^ 5) :
    ∀ e ∈ decBinary inter decTable64L 16 18, e ≤ 18415967188905455829 := by
  intro e he
  simp only [decBinary, List.mem_map, List.mem_range] at he
  obtain ⟨j, hj, rfl⟩ := he
  have hcolB : ∀ j < 16,
      ((List.range 18).map fun i => (58 ^ 5 - 1) * tblAt decTable64L i j).sum
        ≤ 18415967188905455829 := by decide
  have hF : ∀ x ∈ inter, x ≤ 58 ^ 5 - 1 := by
    intro x hx
    have := hE x hx
    omega
  exact le_trans (decCell_eq_sum inter decTable64L 18 j (58 ^ 5 - 1) hF
    (lt_of_le_of_lt (hcolB j hj) (by norm_num))).2 (hcolB j hj)

theorem dec64_norm (X : Nat) (hX : X < r1Div ^ 18) :
    carryNorm (2 ^ 32) (2 ^ 64) (decBinary (toDigitsBE r1Div 18 X) decTable64L 16 18)
      = X / 2 ^ 480 :: toDigitsBE (2 ^ 32) 15 X := by
  have hlen : (decBinary (toDigitsBE r1Div 18 X) decTable64L 16 18).length = 16 := by
    simp [decBinary]
  have hne : decBinary (toDigitsBE r1Div 18 X) decTable64L 16 18 ≠ [] := by
    intro hcon
    rw [hcon] at hlen
    simp at hlen
  have hdig : ∀ x ∈ toDigitsBE r1Div 18 X, x < 58 ^ 5 := by
    intro x hx
    have := toDigitsBE_lt_base r1Div 18 (by norm_num [r1Div]) X x hx
    calc x < r1Div := this
      _ = 58 ^ 5 := by norm_num [r1Div]
  obtain ⟨hcn, _⟩ := carryNorm_spec (2 ^ 32) (2 ^ 64) 18415967188905455829
    (by norm_num) (by decide) _ hne (dec64_entries_le _ hdig)
  have hval : ofDigitsBE (2 ^ 32) (decBinary (toDigitsBE r1Div 18 X) decTable64L 16 18)
      = X := by
    rw [dec64_value _ hdig]
    have hstep : ∀ i ∈ Finset.range 18,
        (toDigitsBE r1Div 18 X).getD i 0 * r1Div ^ (18 - 1 - i)
          = X / r1Div ^ (18 - 1 - i) % r1Div * r1Div ^ (18 - 1 - i) := by
      intro i hi
      rw [toDigitsBE_getD r1Div 18 i X (Finset.mem_range.mp hi)]
    rw [Finset.sum_congr rfl hstep]
    have h2 := ofDigitsBE_toDigitsBE r1Div 18 X
    rw [toDigitsBE_eq_range_map, ofDigitsBE_range_map] at h2
    rw [h2, Nat.mod_eq_of_lt hX]
  rw [hcn, hlen, hval, show (16 : Nat) - 1 = 15 from rfl,
    show ((2 : Nat) ^ 32) ^ 15 = 2 ^ 480 by norm_num]

theorem putUint32BE_eq (v : Nat) (hv : v < 2 ^ 32) : putUint32BE v = toDigitsBE 256 4 v := by
  unfold putUint32BE
  rw [Nat.mod_eq_of_lt hv]
  rw [show toDigitsBE 256 4 v
      = [v / 256 ^ 3 % 256, v / 256 ^ 2 % 256, v / 256 ^ 1 % 256, v / 256 ^ 0 % 256] from rfl,
    show (256 : Nat) ^ 3 = 2 ^ 24 by norm_num, show (256 : Nat) ^ 2 = 2 ^ 16 by norm_num,
    show (256 : Nat) ^ 1 = 2 ^ 8 by norm_num, show (256 : Nat) ^ 0 = 1 by norm_num,
    Nat.div_one]

theorem flatMap_congr (f g : Nat → List Nat) : ∀ l : List Nat, (∀ x ∈ l, f x = g x) →
    l.flatMap f = l.flatMap g := by
  intro l
  induction l with
  | nil => intro _; rfl
  | cons x xs ih =>
    intro h
    rw [List.flatMap_cons, List.flatMap_cons, h x (by simp), ih (fun y hy => h y (by simp [hy]))]

theorem flatMap_put32 (cnt X : Nat) :
    (toDigitsBE (2 ^ 32) cnt X).flatMap putUint32BE = toDigitsBE 256 (4 * cnt) X := by
  rw [flatMap_congr putUint32BE (toDigitsBE 256 4) _
    (fun x hx => putUint32BE_eq x (toDigitsBE_lt_base (2 ^ 32) cnt (by norm_num) X x hx)),
    toDigitsBE_grouping 256 4 cnt X, show (256 : Nat) ^ 4 = 2 ^ 32 by norm_num]

/-- Go `Decode32` on a validated input of accepted length, characterized
on the value of its base58 digits: overflow check, then canonical-form
check, then the big-endian bytes. -/
theorem decode32_char (enc : List Nat) (h32 : 32 ≤ enc.length) (h44 : enc.length ≤ 44)
    (hv : validateChars enc = some true) :
    decode32 enc =
      if 2 ^ 256 ≤ ofDigitsBE 58 (enc.map lutVal58) then some none
      else if canonCheck (toDigitsBE 256 32 (ofDigitsBE 58 (enc.map lutVal58))) enc
        then some (some (toDigitsBE 256 32 (ofDigitsBE 58 (enc.map lutVal58))))
        else some none := by
  have hmem : ∀ c ∈ enc, 49 ≤ c ∧ lutVal58 c ≠ 255 := (validateChars_true_iff enc).mp hv
  have hds : ∀ d ∈ enc.map lutVal58, d < 58 := by
    intro d hd
    rw [List.mem_map] at hd
    obtain ⟨c, hc, rfl⟩ := hd
    exact lutVal58_lt c (hmem c hc).2
  have hdlen : (enc.map lutVal58).length = enc.length := List.length_map _ _
  have hX : ofDigitsBE 58 (enc.map lutVal58) < r1Div ^ 9 := by
    have h1 := ofDigitsBE_lt 58 (enc.map lutVal58) hds
    rw [hdlen] at h1
    calc ofDigitsBE 58 (enc.map lutVal58) < 58 ^ enc.length := h1
      _ ≤ 58 ^ 45 := Nat.pow_le_pow_right (by norm_num) (by omega)
      _ = r1Div ^ 9 := by norm_num [r1Div]
  have hrawdig : ∀ d ∈ List.replicate (45 - enc.length) 0 ++ enc.map lutVal58, d < 58 := by
    intro d hd
    rw [List.mem_append] at hd
    rcases hd with hd | hd
    · rw [List.eq_of_mem_replicate hd]; norm_num
    · exact hds d hd
  have hrawlen : (List.replicate (45 - enc.length) 0 ++ enc.map lutVal58).length = 45 := by
    rw [List.length_append, List.length_replicate, hdlen]; omega
  have hraw : List.replicate (45 - enc.length) 0 ++ enc.map lutVal58
      = toDigitsBE 58 45 (ofDigitsBE 58 (enc.map lutVal58)) := by
    have h1 := toDigitsBE_ofDigitsBE 58 _ hrawdig
    rw [hrawlen, ofDigitsBE_zero_append] at h1
    exact h1.symm
  have h9 : interFromRaw (toDigitsBE 58 45 (ofDigitsBE 58 (enc.map lutVal58))) 9
      = toDigitsBE r1Div 9 (ofDigitsBE 58 (enc.map lutVal58)) := by
    have h0 := interFromRaw_digits (ofDigitsBE 58 (enc.map lutVal58)) 9
    norm_num at h0
    exact h0
  have hbin : carryNorm (2 ^ 32) (2 ^ 64)
        (decBinary (interFromRaw (List.replicate (45 - enc.length) 0 ++ enc.map lutVal58) 9)
          decTable32L 8 9)
      = ofDigitsBE 58 (enc.map lutVal58) / 2 ^ 224
        :: toDigitsBE (2 ^ 32) 7 (ofDigitsBE 58 (enc.map lutVal58)) := by
    rw [hraw, h9]
    exact dec32_norm _ hX
  have hd32 : decode32 enc =
      (if 4294967295 < (carryNorm (2 ^ 32) (2 ^ 64)
            (decBinary (interFromRaw (List.replicate (45 - enc.length) 0 ++ enc.map lutVal58) 9)
              decTable32L 8 9)).getD 0 0
        then some none
        else if canonCheck ((carryNorm (2 ^ 32) (2 ^ 64)
              (decBinary (interFromRaw
                (List.replicate (45 - enc.length) 0 ++ enc.map lutVal58) 9)
                decTable32L 8 9)).flatMap putUint32BE) enc
          then some (some ((carryNorm (2 ^ 32) (2 ^ 64)
              (decBinary (interFromRaw
                (List.replicate (45 - enc.length) 0 ++ enc.map lutVal58) 9)
                decTable32L 8 9)).flatMap putUint32BE))
          else some none) := by
    unfold decode32
    rw [if_neg (by omega), hv]
  rw [hd32, hbin]
  have hcond : (4294967295 < (ofDigitsBE 58 (enc.map lutVal58) / 2 ^ 224
        :: toDigitsBE (2 ^ 32) 7 (ofDigitsBE 58 (enc.map lutVal58))).getD 0 0)
      ↔ 2 ^ 256 ≤ ofDigitsBE 58 (enc.map lutVal58) := by
    rw [show (ofDigitsBE 58 (enc.map lutVal58) / 2 ^ 224
        :: toDigitsBE (2 ^ 32) 7 (ofDigitsBE 58 (enc.map lutVal58))).getD 0 0
      = ofDigitsBE 58 (enc.map lutVal58) / 2 ^ 224 from rfl]
    constructor
    · intro h
      have h2 : 2 ^ 32 ≤ ofDigitsBE 58 (enc.map lutVal58) / 2 ^ 224 := by omega
      have h3 := (Nat.le_div_iff_mul_le (show 0 < 2 ^ 224 by positivity)).mp h2
      calc (2 : Nat) ^ 256 = 2 ^ 32 * 2 ^ 224 := by norm_num
        _ ≤ ofDigitsBE 58 (enc.map lutVal58) := h3
    · intro h
      have h3 : 2 ^ 32 * 2 ^ 224 ≤ ofDigitsBE 58 (enc.map lutVal58) := by
        calc (2 : Nat) ^ 32 * 2 ^ 224 = 2 ^ 256 := by norm_num
          _ ≤ _ := h
      have h2 := (Nat.le_div_iff_mul_le (show 0 < 2 ^ 224 by positivity)).mpr h3
      omega
  by_cases hov : 2 ^ 256 ≤ ofDigitsBE 58 (enc.map lutVal58)
  · rw [if_pos hov, if_pos (hcond.mpr hov)]
  · rw [if_neg hov, if_neg (fun hc => hov (hcond.mp hc))]
    have hq : ofDigitsBE 58 (enc.map lutVal58) / 2 ^ 224 < 2 ^ 32 := by
      rw [Nat.div_lt_iff_lt_mul (show 0 < 2 ^ 224 by positivity)]
      calc ofDigitsBE 58 (enc.map lutVal58) < 2 ^ 256 := by omega
        _ = 2 ^ 32 * 2 ^ 224 := by norm_num
    have hcons : ofDigitsBE 58 (enc.map lutVal58) / 2 ^ 224
          :: toDigitsBE (2 ^ 32) 7 (ofDigitsBE 58 (enc.map lutVal58))
        = toDigitsBE (2 ^ 32) 8 (ofDigitsBE 58 (enc.map lutVal58)) := by
      rw [show toDigitsBE (2 ^ 32) 8 (ofDigitsBE 58 (enc.map lutVal58))
          = ofDigitsBE 58 (enc.map lutVal58) / (2 ^ 32) ^ 7 % 2 ^ 32
            :: toDigitsBE (2 ^ 32) 7 (ofDigitsBE 58 (enc.map lutVal58)) from rfl,
        show ((2 : Nat) ^ 32) ^ 7 = 2 ^ 224 by norm_num, Nat.mod_eq_of_lt hq]
    rw [hcons, flatMap_put32, show (4 : Nat) * 8 = 32 from rfl]

/-- Go `Decode64` on a validated input of accepted length, characterized
like `decode32_char`. -/
theorem decode64_char (enc : List Nat) (h64 : 64 ≤ enc.length) (h88 : enc.length ≤ 88)
    (hv : validateChars enc = some true) :
    decode64 enc =
      if 2 ^ 512 ≤ ofDigitsBE 58 (enc.map lutVal58) then some none
      else if canonCheck (toDigitsBE 256 64 (ofDigitsBE 58 (enc.map lutVal58))) enc
        then some (some (toDigitsBE 256 64 (ofDigitsBE 58 (enc.map lutVal58))))
        else some none := by
  have hmem : ∀ c ∈ enc, 49 ≤ c ∧ lutVal58 c ≠ 255 := (validateChars_true_iff enc).mp hv
  have hds : ∀ d ∈ enc.map lutVal58, d < 58 := by
    intro d hd
    rw [List.mem_map] at hd
    obtain ⟨c, hc, rfl⟩ := hd
    exact lutVal58_lt c (hmem c hc).2
  have hdlen : (enc.map lutVal58).length = enc.length := List.length_map _ _
  have hX : ofDigitsBE 58 (enc.map lutVal58) < r1Div ^ 18 := by
    have h1 := ofDigitsBE_lt 58 (enc.map lutVal58) hds
    rw [hdlen] at h1
    calc ofDigitsBE 58 (enc.map lutVal58) < 58 ^ enc.length := h1
      _ ≤ 58 ^ 90 := Nat.pow_le_pow_right (by norm_num) (by omega)
      _ = r1Div ^ 18 := by norm_num [r1Div]
  have hrawdig : ∀ d ∈ List.replicate (90 - enc.length) 0 ++ enc.map lutVal58, d < 58 := by
    intro d hd
    rw [List.mem_append] at hd
    rcases hd with hd | hd
    · rw [List.eq_of_mem_replicate hd]; norm_num
    · exact hds d hd
  have hrawlen : (List.replicate (90 - enc.length) 0 ++ enc.map lutVal58).length = 90 := by
    rw [List.length_append, List.length_replicate, hdlen]; omega
  have hraw : List.replicate (90 - enc.length) 0 ++ enc.map lutVal58
      = toDigitsBE 58 90 (ofDigitsBE 58 (enc.map lutVal58)) := by
    have h1 := toDigitsBE_ofDigitsBE 58 _ hrawdig
    rw [hrawlen, ofDigitsBE_zero_append] at h1
    exact h1.symm
  have h18 : interFromRaw (toDigitsBE 58 90 (ofDigitsBE 58 (enc.map lutVal58))) 18
      = toDigitsBE r1Div 18 (ofDigitsBE 58 (enc.map lutVal58)) := by
    have h0 := interFromRaw_digits (ofDigitsBE 58 (enc.map lutVal58)) 18
    norm_num at h0
    exact h0
  have hbin : carryNorm (2 ^ 32) (2 ^ 64)
        (decBinary (interFromRaw (List.replicate (90 - enc.length) 0 ++ enc.map lutVal58) 18)
          decTable64L 16 18)
      = ofDigitsBE 58 (enc.map lutVal58) / 2 ^ 480
        :: toDigitsBE (2 ^ 32) 15 (ofDigitsBE 58 (enc.map lutVal58)) := by
    rw [hraw, h18]
    exact dec64_norm _ hX
  have hd64 : decode64 enc =
      (if 4294967295 < (carryNorm (2 ^ 32) (2 ^ 64)
            (decBinary (interFromRaw (List.replicate (90 - enc.length) 0 ++ enc.map lutVal58) 18)
              decTable64L 16 18)).getD 0 0
        then some none
        else if canonCheck ((carryNorm (2 ^ 32) (2 ^ 64)
              (decBinary (interFromRaw
                (List.replicate (90 - enc.length) 0 ++ enc.map lutVal58) 18)
                decTable64L 16 18)).flatMap putUint32BE) enc
          then some (some ((carryNorm (2 ^ 32) (2 ^ 64)
              (decBinary (interFromRaw
                (List.replicate (90 - enc.length) 0 ++ enc.map lutVal58) 18)
                decTable64L 16 18)).flatMap putUint32BE))
          else some none) := by
    unfold decode64
    rw [if_neg (by omega), hv]
  rw [hd64, hbin]
  have hcond : (4294967295 < (ofDigitsBE 58 (enc.map lutVal58) / 2 ^ 480
        :: toDigitsBE (2 ^ 32) 15 (ofDigitsBE 58 (enc.map lutVal58))).getD 0 0)
      ↔ 2 ^ 512 ≤ ofDigitsBE 58 (enc.map lutVal58) := by
    rw [show (ofDigitsBE 58 (enc.map lutVal58) / 2 ^ 480
        :: toDigitsBE (2 ^ 32) 15 (ofDigitsBE 58 (enc.map lutVal58))).getD 0 0
      = ofDigitsBE 58 (enc.map lutVal58) / 2 ^ 480 from rfl]
    constructor
    · intro h
      have h2 : 2 ^ 32 ≤ ofDigitsBE 58 (enc.map lutVal58) / 2 ^ 480 := by omega
      have h3 := (Nat.le_div_iff_mul_le (show 0 < 2 ^ 480 by positivity)).mp h2
      calc (2 : Nat) ^ 512 = 2 ^ 32 * 2 ^ 480 := by norm_num
        _ ≤ ofDigitsBE 58 (enc.map lutVal58) := h3
    · intro h
      have h3 : 2 ^ 32 * 2 ^ 480 ≤ ofDigitsBE 58 (enc.map lutVal58) := by
        calc (2 : Nat) ^ 32 * 2 ^ 480 = 2 ^ 512 := by norm_num
          _ ≤ _ := h
      have h2 := (Nat.le_div_iff_mul_le (show 0 < 2 ^ 480 by positivity)).mpr h3
      omega
  by_cases hov : 2 ^ 512 ≤ ofDigitsBE 58 (enc.map lutVal58)
  · rw [if_pos hov, if_pos (hcond.mpr hov)]
  · rw [if_neg hov, if_neg (fun hc => hov (hcond.mp hc))]
    have hq : ofDigitsBE 58 (enc.map lutVal58) / 2 ^ 480 < 2 ^ 32 := by
      rw [Nat.div_lt_iff_lt_mul (show 0 < 2 ^ 480 by positivity)]
      calc ofDigitsBE 58 (enc.map lutVal58) < 2 ^ 512 := by omega
        _ = 2 ^ 32 * 2 ^ 480 := by norm_num
    have hcons : ofDigitsBE 58 (enc.map lutVal58) / 2 ^ 480
          :: toDigitsBE (2 ^ 32) 15 (ofDigitsBE 58 (enc.map lutVal58))
        = toDigitsBE (2 ^ 32) 16 (ofDigitsBE 58 (enc.map lutVal58)) := by
      rw [show toDigitsBE (2 ^ 32) 16 (ofDigitsBE 58 (enc.map lutVal58))
          = ofDigitsBE 58 (enc.map lutVal58) / (2 ^ 32) ^ 15 % 2 ^ 32
            :: toDigitsBE (2 ^ 32) 15 (ofDigitsBE 58 (enc.map lutVal58)) from rfl,
        show ((2 : Nat) ^ 32) ^ 15 = 2 ^ 480 by norm_num, Nat.mod_eq_of_lt hq]
    rw [hcons, flatMap_put32, show (4 : Nat) * 16 = 64 from rfl]

theorem getD_map_lt (f : Nat → Nat) (l : List Nat) (i : Nat) (hi : i < l.length) :
    (l.map f).getD i 0 = f (l.getD i 0) := by
  rw [List.getD_eq_getElem?_getD, List.getD_eq_getElem?_getD, List.getElem?_map,
    List.getElem?_eq_getElem hi]
  rfl

theorem roundtrip32 (inb : List Nat) (hl : inb.length = 32) (hb : ∀ x ∈ inb, x < 256) :
    decode32 (encode32 inb) = some (some inb) := by
  have henc := encode32_eq inb hl hb
  have hwin := lz_window32 inb hl hb
  have hbounds := encode32_bounds inb hl hb
  set X := ofDigitsBE 256 inb with hXdef
  set T := toDigitsBE 58 45 X with hTdef
  set z := lzCount inb with hzdef
  set skip := lzCount T - z with hskipdef
  have hTdig : ∀ d ∈ T, d < 58 := toDigitsBE_lt_base 58 45 (by norm_num) X
  have hTlen : T.length = 45 := toDigitsBE_length _ _ _
  have hz32 : z ≤ 32 := by
    have := lzCount_le_length inb
    omega
  have hX256 : X < 2 ^ 256 := by
    have h1 := ofDigitsBE_lt 256 inb hb
    rw [hl] at h1
    calc X < 256 ^ 32 := h1
      _ = 2 ^ 256 := by norm_num
  have hX45 : X < 58 ^ 45 := lt_of_lt_of_le hX256 (by norm_num)
  have hchars : ∀ c ∈ encode32 inb, 49 ≤ c ∧ lutVal58 c ≠ 255 := by
    intro c hc
    rw [henc, List.mem_map] at hc
    obtain ⟨d, hd, rfl⟩ := hc
    have hd58 : d < 58 := hTdig d (List.mem_of_mem_drop hd)
    have h1 := alpha_lut d hd58
    refine ⟨h1.2, ?_⟩
    rw [h1.1]
    omega
  have hv : validateChars (encode32 inb) = some true := (validateChars_true_iff _).mpr hchars
  have hmap : (encode32 inb).map lutVal58 = T.drop skip := by
    rw [henc, List.map_map]
    have hcg : ∀ d ∈ T.drop skip, (lutVal58 ∘ fun d => alphabetL.getD d 0) d = d := by
      intro d hd
      exact (alpha_lut d (hTdig d (List.mem_of_mem_drop hd))).1
    rw [List.map_congr_left hcg]
    simp
  have hXv : ofDigitsBE 58 ((encode32 inb).map lutVal58) = X := by
    rw [hmap, ofDigitsBE_drop_lz 58 T skip (by omega), hTdef, ofDigitsBE_toDigitsBE]
    exact Nat.mod_eq_of_lt hX45
  have hbytes : toDigitsBE 256 32 X = inb := by
    have h1 := toDigitsBE_ofDigitsBE 256 inb hb
    rwa [hl] at h1
  rw [decode32_char _ hbounds.1 hbounds.2.1 hv, hXv, if_neg (by omega), hbytes]
  have hlenc : (encode32 inb).length = 45 - skip := by
    rw [henc, List.length_map, List.length_drop, hTlen]
  have hgetc : ∀ i, i < 45 - skip → (encode32 inb).getD i 0
      = alphabetL.getD (T.getD (skip + i) 0) 0 := by
    intro i hi
    rw [henc, getD_map_lt _ _ i (by rw [List.length_drop, hTlen]; omega), getD_drop_eq]
  have hzlen : z ≤ (encode32 inb).length := by omega
  have htake : (encode32 inb).take z = List.replicate z 49 := by
    refine getD_ext _ _ z (by rw [List.length_take]; omega) (by simp) (fun i hi => ?_)
    have h1 : ((encode32 inb).take z).getD i 0 = (encode32 inb).getD i 0 := by
      rw [List.getD_eq_getElem?_getD, List.getD_eq_getElem?_getD, List.getElem?_take]
      simp [hi]
    rw [h1, hgetc i (by omega),
      lzCount_getD_eq_zero T (skip + i) (by omega),
      show alphabetL.getD 0 0 = 49 from rfl,
      show (List.replicate z (49 : Nat)).getD i 0 = 49 by
        rw [List.getD_eq_getElem?_getD, List.getElem?_replicate]
        simp [hi]]
  suffices hcc : canonCheck inb (encode32 inb) = true by rw [if_pos hcc]
  unfold canonCheck
  rw [← hzdef, Bool.and_eq_true]
  constructor
  · rw [htake]
    simp [List.all_eq_true, List.eq_of_mem_replicate]
  · rw [Bool.or_eq_true]
    by_cases hzl : z < (encode32 inb).length
    · refine Or.inr ?_
      have hlzT : lzCount T < 45 := by omega
      have hTd : T.getD (lzCount T) 0 ≠ 0 := lzCount_getD_pos T (by omega)
      have hTd58 : T.getD (lzCount T) 0 < 58 := getD_lt_of_all 58 (by norm_num) T _ hTdig
      have hsz : skip + z = lzCount T := by omega
      rw [hgetc z (by omega), hsz]
      simp only [Bool.not_eq_true']
      rw [beq_eq_false_iff_ne]
      exact alpha_ne49 _ hTd58 hTd
    · refine Or.inl ?_
      simp [hzl]

theorem roundtrip64 (inb : List Nat) (hl : inb.length = 64) (hb : ∀ x ∈ inb, x < 256) :
    decode64 (encode64 inb) = some (some inb) := by
  have henc := encode64_eq inb hl hb
  have hwin := lz_window64 inb hl hb
  have hbounds := encode64_bounds inb hl hb
  set X := ofDigitsBE 256 inb with hXdef
  set T := toDigitsBE 58 90 X with hTdef
  set z := lzCount inb with hzdef
  set skip := lzCount T - z with hskipdef
  have hTdig : ∀ d ∈ T, d < 58 := toDigitsBE_lt_base 58 90 (by norm_num) X
  have hTlen : T.length = 90 := toDigitsBE_length _ _ _
  have hz64 : z ≤ 64 := by
    have := lzCount_le_length inb
    omega
  have hX512 : X < 2 ^ 512 := by
    have h1 := ofDigitsBE_lt 256 inb hb
    rw [hl] at h1
    calc X < 256 ^ 64 := h1
      _ = 2 ^ 512 := by norm_num
  have hX90 : X < 58 ^ 90 := lt_of_lt_of_le hX512 (by norm_num)
  have hchars : ∀ c ∈ encode64 inb, 49 ≤ c ∧ lutVal58 c ≠ 255 := by
    intro c hc
    rw [henc, List.mem_map] at hc
    obtain ⟨d, hd, rfl⟩ := hc
    have hd58 : d < 58 := hTdig d (List.mem_of_mem_drop hd)
    have h1 := alpha_lut d hd58
    refine ⟨h1.2, ?_⟩
    rw [h1.1]
    omega
  have hv : validateChars (encode64 inb) = some true := (validateChars_true_iff _).mpr hchars
  have hmap : (encode64 inb).map lutVal58 = T.drop skip := by
    rw [henc, List.map_map]
    have hcg : ∀ d ∈ T.drop skip, (lutVal58 ∘ fun d => alphabetL.getD d 0) d = d := by
      intro d hd
      exact (alpha_lut d (hTdig d (List.mem_of_mem_drop hd))).1
    rw [List.map_congr_left hcg]
    simp
  have hXv : ofDigitsBE 58 ((encode64 inb).map lutVal58) = X := by
    rw [hmap, ofDigitsBE_drop_lz 58 T skip (by omega), hTdef, ofDigitsBE_toDigitsBE]
    exact Nat.mod_eq_of_lt hX90
  have hbytes : toDigitsBE 256 64 X = inb := by
    have h1 := toDigitsBE_ofDigitsBE 256 inb hb
    rwa [hl] at h1
  rw [decode64_char _ hbounds.1 hbounds.2.1 hv, hXv, if_neg (by omega), hbytes]
  have hlenc : (encode64 inb).length = 90 - skip := by
    rw [henc, List.length_map, List.length_drop, hTlen]
  have hgetc : ∀ i, i < 90 - skip → (encode64 inb).getD i 0
      = alphabetL.getD (T.getD (skip + i) 0) 0 := by
    intro i hi
    rw [henc, getD_map_lt _ _ i (by rw [List.length_drop, hTlen]; omega), getD_drop_eq]
  have hzlen : z ≤ (encode64 inb).length := by omega
  have htake : (encode64 inb).take z = List.replicate z 49 := by
    refine getD_ext _ _ z (by rw [List.length_take]; omega) (by simp) (fun i hi => ?_)
    have h1 : ((encode64 inb).take z).getD i 0 = (encode64 inb).getD i 0 := by
      rw [List.getD_eq_getElem?_getD, List.getD_eq_getElem?_getD, List.getElem?_take]
      simp [hi]
    rw [h1, hgetc i (by omega),
      lzCount_getD_eq_zero T (skip + i) (by omega),
      show alphabetL.getD 0 0 = 49 from rfl,
      show (List.replicate z (49 : Nat)).getD i 0 = 49 by
        rw [List.getD_eq_getElem?_getD, List.getElem?_replicate]
        simp [hi]]
  suffices hcc : canonCheck inb (encode64 inb) = true by rw [if_pos hcc]
  unfold canonCheck
  rw [← hzdef, Bool.and_eq_true]
  constructor
  · rw [htake]
    simp [List.all_eq_true, List.eq_of_mem_replicate]
  · rw [Bool.or_eq_true]
    by_cases hzl : z < (encode64 inb).length
    · refine Or.inr ?_
      have hlzT : lzCount T < 90 := by omega
      have hTd : T.getD (lzCount T) 0 ≠ 0 := lzCount_getD_pos T (by omega)
      have hTd58 : T.getD (lzCount T) 0 < 58 := getD_lt_of_all 58 (by norm_num) T _ hTdig
      have hsz : skip + z = lzCount T := by omega
      rw [hgetc z (by omega), hsz]
      simp only [Bool.not_eq_true']
      rw [beq_eq_false_iff_ne]
      exact alpha_ne49 _ hTd58 hTd
    · refine Or.inl ?_
      simp [hzl]

theorem getD_mem_self (l : List Nat) (i : Nat) (hi : i < l.length) : l.getD i 0 ∈ l := by
  rw [List.getD_eq_getElem?_getD, List.getElem?_eq_getElem hi]
  exact List.getElem_mem hi

theorem drop_replicate_append (k : Nat) (l : List Nat) :
    (List.replicate k 0 ++ l).drop k = l := by
  induction k with
  | zero => simp
  | succ k ih => rw [List.replicate_succ, List.cons_append, List.drop_succ_cons, ih]

theorem decode32_sound (enc out : List Nat) (h : decode32 enc = some (some out)) :
    encode32 out = enc ∧ (enc.takeWhile fun c => c == 49).length = lzCount out := by
  by_cases hlen : enc.length < 32 ∨ 44 < enc.length
  · rw [show decode32 enc = some none by unfold decode32; rw [if_pos hlen]] at h
    exact absurd h (by simp)
  push_neg at hlen
  obtain ⟨h32, h44⟩ := hlen
  cases hvc : validateChars enc with
  | none =>
    rw [show decode32 enc = none by unfold decode32; rw [if_neg (by omega), hvc]] at h
    exact absurd h (by simp)
  | some b =>
    cases b with
    | false =>
      rw [show decode32 enc = some none by unfold decode32; rw [if_neg (by omega), hvc]] at h
      exact absurd h (by simp)
    | true =>
    rw [decode32_char enc (by omega) h44 hvc] at h
    by_cases hov : 2 ^ 256 ≤ ofDigitsBE 58 (enc.map lutVal58)
    · rw [if_pos hov] at h
      exact absurd h (by simp)
    rw [if_neg hov] at h
    by_cases hcc : canonCheck (toDigitsBE 256 32 (ofDigitsBE 58 (enc.map lutVal58))) enc = true
    swap
    · rw [if_neg hcc] at h
      exact absurd h (by simp)
    rw [if_pos hcc] at h
    have hout : out = toDigitsBE 256 32 (ofDigitsBE 58 (enc.map lutVal58)) := by
      have := Option.some.inj (Option.some.inj h)
      exact this.symm
    set X := ofDigitsBE 58 (enc.map lutVal58) with hXdef
    set ds := enc.map lutVal58 with hdsdef
    have hmem : ∀ c ∈ enc, 49 ≤ c ∧ lutVal58 c ≠ 255 := (validateChars_true_iff enc).mp hvc
    have hds58 : ∀ d ∈ ds, d < 58 := by
      intro d hd
      rw [hdsdef, List.mem_map] at hd
      obtain ⟨c, hc, rfl⟩ := hd
      exact lutVal58_lt c (hmem c hc).2
    have hdslen : ds.length = enc.length := List.length_map _ _
    have hrawdig : ∀ d ∈ List.replicate (45 - enc.length) 0 ++ ds, d < 58 := by
      intro d hd
      rw [List.mem_append] at hd
      rcases hd with hd | hd
      · rw [List.eq_of_mem_replicate hd]; norm_num
      · exact hds58 d hd
    have hrawlen : (List.replicate (45 - enc.length) 0 ++ ds).length = 45 := by
      rw [List.length_append, List.length_replicate, hdslen]; omega
    have hraw : List.replicate (45 - enc.length) 0 ++ ds = toDigitsBE 58 45 X := by
      have h1 := toDigitsBE_ofDigitsBE 58 _ hrawdig
      rw [hrawlen, ofDigitsBE_zero_append] at h1
      exact h1.symm
    have hlzT : lzCount (toDigitsBE 58 45 X) = (45 - enc.length) + lzCount ds := by
      rw [← hraw, lzCount_replicate_append]
    set zb := lzCount out with hzbdef
    have houtlen : out.length = 32 := by rw [hout]; exact toDigitsBE_length _ _ _
    have hzb32 : zb ≤ 32 := by
      have := lzCount_le_length out
      omega
    rw [show canonCheck (toDigitsBE 256 32 X) enc
        = (((enc.take (lzCount (toDigitsBE 256 32 X))).all fun c => c == 49) &&
          (!(decide (lzCount (toDigitsBE 256 32 X) < enc.length))
            || !(enc.getD (lzCount (toDigitsBE 256 32 X)) 0 == 49))) from rfl,
      ← hout, ← hzbdef, Bool.and_eq_true] at hcc
    obtain ⟨hA, hB⟩ := hcc
    have h49 : ∀ i, i < zb → enc.getD i 0 = 49 := by
      intro i hi
      have hil : i < (enc.take zb).length := by
        rw [List.length_take]
        omega
      have hmem2 : (enc.take zb).getD i 0 ∈ enc.take zb := getD_mem_self _ _ hil
      have := List.all_eq_true.mp hA _ hmem2
      have heq : (enc.take zb).getD i 0 = enc.getD i 0 := by
        rw [List.getD_eq_getElem?_getD, List.getD_eq_getElem?_getD, List.getElem?_take]
        simp [hi]
      rw [heq] at this
      exact eq_of_beq this
    have hnext : zb < enc.length → enc.getD zb 0 ≠ 49 := by
      intro hlt heq
      rw [heq] at hB
      simp [hlt] at hB
    have hds0 : ∀ i, i < zb → ds.getD i 0 = 0 := by
      intro i hi
      rw [hdsdef, getD_map_lt _ _ i (by omega), h49 i hi]
      rfl
    have hzb_le : zb ≤ lzCount ds := lzCount_ge ds zb (by omega) hds0
    have hle_zb : lzCount ds ≤ zb := by
      by_cases hzbL : zb < enc.length
      · by_contra hgt
        have hz0 : ds.getD zb 0 = 0 := lzCount_getD_eq_zero ds zb (by omega)
        have hlut : lutVal58 (enc.getD zb 0) = 0 := by
          rw [hdsdef] at hz0
          rwa [getD_map_lt _ _ zb hzbL] at hz0
        have hmem3 : enc.getD zb 0 ∈ enc := getD_mem_self _ _ hzbL
        have halpha := lut_alpha _ (hmem _ hmem3).1 (hmem _ hmem3).2
        rw [hlut] at halpha
        exact hnext hzbL halpha.symm
      · have := lzCount_le_length ds
        omega
    have hzds : lzCount ds = zb := by omega
    have houtb : ∀ x ∈ out, x < 256 := by
      rw [hout]
      exact toDigitsBE_lt_base 256 32 (by norm_num) X
    have hXout : ofDigitsBE 256 out = X := by
      rw [hout, ofDigitsBE_toDigitsBE]
      have : X < 256 ^ 32 := by
        calc X < 2 ^ 256 := by omega
          _ = 256 ^ 32 := by norm_num
      exact Nat.mod_eq_of_lt this
    constructor
    · rw [encode32_eq out houtlen houtb, hXout, hlzT, ← hzbdef, hzds,
        show 45 - enc.length + zb - zb = 45 - enc.length by omega, ← hraw,
        drop_replicate_append, hdsdef, List.map_map]
      have hcg : ∀ c ∈ enc, ((fun d => alphabetL.getD d 0) ∘ lutVal58) c = c := by
        intro c hc
        exact lut_alpha c (hmem c hc).1 (hmem c hc).2
      rw [List.map_congr_left hcg]
      simp
    · refine takeWhile_length_eq _ enc zb (by omega) (fun i hi => ?_) (fun hlt => ?_)
      · rw [h49 i hi]
        rfl
      · have := hnext hlt
        rw [beq_eq_false_iff_ne]
        exact this

theorem decode64_sound (enc out : List Nat) (h : decode64 enc = some (some out)) :
    encode64 out = enc ∧ (enc.takeWhile fun c => c == 49).length = lzCount out := by
  by_cases hlen : enc.length < 64 ∨ 88 < enc.length
  · rw [show decode64 enc = some none by unfold decode64; rw [if_pos hlen]] at h
    exact absurd h (by simp)
  push_neg at hlen
  obtain ⟨h64, h88⟩ := hlen
  cases hvc : validateChars enc with
  | none =>
    rw [show decode64 enc = none by unfold decode64; rw [if_neg (by omega), hvc]] at h
    exact absurd h (by simp)
  | some b =>
    cases b with
    | false =>
      rw [show decode64 enc = some none by unfold decode64; rw [if_neg (by omega), hvc]] at h
      exact absurd h (by simp)
    | true =>
    rw [decode64_char enc (by omega) h88 hvc] at h
    by_cases hov : 2 ^ 512 ≤ ofDigitsBE 58 (enc.map lutVal58)
    · rw [if_pos hov] at h
      exact absurd h (by simp)
    rw [if_neg hov] at h
    by_cases hcc : canonCheck (toDigitsBE 256 64 (ofDigitsBE 58 (enc.map lutVal58))) enc = true
    swap
    · rw [if_neg hcc] at h
      exact absurd h (by simp)
    rw [if_pos hcc] at h
    have hout : out = toDigitsBE 256 64 (ofDigitsBE 58 (enc.map lutVal58)) := by
      have := Option.some.inj (Option.some.inj h)
      exact this.symm
    set X := ofDigitsBE 58 (enc.map lutVal58) with hXdef
    set ds := enc.map lutVal58 with hdsdef
    have hmem : ∀ c ∈ enc, 49 ≤ c ∧ lutVal58 c ≠ 255 := (validateChars_true_iff enc).mp hvc
    have hds58 : ∀ d ∈ ds, d < 58 := by
      intro d hd
      rw [hdsdef, List.mem_map] at hd
      obtain ⟨c, hc, rfl⟩ := hd
      exact lutVal58_lt c (hmem c hc).2
    have hdslen : ds.length = enc.length := List.length_map _ _
    have hrawdig : ∀ d ∈ List.replicate (90 - enc.length) 0 ++ ds, d < 58 := by
      intro d hd
      rw [List.mem_append] at hd
      rcases hd with hd | hd
      · rw [List.eq_of_mem_replicate hd]; norm_num
      · exact hds58 d hd
    have hrawlen : (List.replicate (90 - enc.length) 0 ++ ds).length = 90 := by
      rw [List.length_append, List.length_replicate, hdslen]; omega
    have hraw : List.replicate (90 - enc.length) 0 ++ ds = toDigitsBE 58 90 X := by
      have h1 := toDigitsBE_ofDigitsBE 58 _ hrawdig
      rw [hrawlen, ofDigitsBE_zero_append] at h1
      exact h1.symm
    have hlzT : lzCount (toDigitsBE 58 90 X) = (90 - enc.length) + lzCount ds := by
      rw [← hraw, lzCount_replicate_append]
    set zb := lzCount out with hzbdef
    have houtlen : out.length = 64 := by rw [hout]; exact toDigitsBE_length _ _ _
    have hzb64 : zb ≤ 64 := by
      have := lzCount_le_length out
      omega
    rw [show canonCheck (toDigitsBE 256 64 X) enc
        = (((enc.take (lzCount (toDigitsBE 256 64 X))).all fun c => c == 49) &&
          (!(decide (lzCount (toDigitsBE 256 64 X) < enc.length))
            || !(enc.getD (lzCount (toDigitsBE 256 64 X)) 0 == 49))) from rfl,
      ← hout, ← hzbdef, Bool.and_eq_true] at hcc
    obtain ⟨hA, hB⟩ := hcc
    have h49 : ∀ i, i < zb → enc.getD i 0 = 49 := by
      intro i hi
      have hil : i < (enc.take zb).length := by
        rw [List.length_take]
        omega
      have hmem2 : (enc.take zb).getD i 0 ∈ enc.take zb := getD_mem_self _ _ hil
      have := List.all_eq_true.mp hA _ hmem2
      have heq : (enc.take zb).getD i 0 = enc.getD i 0 := by
        rw [List.getD_eq_getElem?_getD, List.getD_eq_getElem?_getD, List.getElem?_take]
        simp [hi]
      rw [heq] at this
      exact eq_of_beq this
    have hnext : zb < enc.length → enc.getD zb 0 ≠ 49 := by
      intro hlt heq
      rw [heq] at hB
      simp [hlt] at hB
    have hds0 : ∀ i, i < zb → ds.getD i 0 = 0 := by
      intro i hi
      rw [hdsdef, getD_map_lt _ _ i (by omega), h49 i hi]
      rfl
    have hzb_le : zb ≤ lzCount ds := lzCount_ge ds zb (by omega) hds0
    have hle_zb : lzCount ds ≤ zb := by
      by_cases hzbL : zb < enc.length
      · by_contra hgt
        have hz0 : ds.getD zb 0 = 0 := lzCount_getD_eq_zero ds zb (by omega)
        have hlut : lutVal58 (enc.getD zb 0) = 0 := by
          rw [hdsdef] at hz0
          rwa [getD_map_lt _ _ zb hzbL] at hz0
        have hmem3 : enc.getD zb 0 ∈ enc := getD_mem_self _ _ hzbL
        have halpha := lut_alpha _ (hmem _ hmem3).1 (hmem _ hmem3).2
        rw [hlut] at halpha
        exact hnext hzbL halpha.symm
      · have := lzCount_le_length ds
        omega
    have hzds : lzCount ds = zb := by omega
    have houtb : ∀ x ∈ out, x < 256 := by
      rw [hout]
      exact toDigitsBE_lt_base 256 64 (by norm_num) X
    have hXout : ofDigitsBE 256 out = X := by
      rw [hout, ofDigitsBE_toDigitsBE]
      have : X < 256 ^ 64 := by
        calc X < 2 ^ 512 := by omega
          _ = 256 ^ 64 := by norm_num
      exact Nat.mod_eq_of_lt this
    constructor
    · rw [encode64_eq out houtlen houtb, hXout, hlzT, ← hzbdef, hzds,
        show 90 - enc.length + zb - zb = 90 - enc.length by omega, ← hraw,
        drop_replicate_append, hdsdef, List.map_map]
      have hcg : ∀ c ∈ enc, ((fun d => alphabetL.getD d 0) ∘ lutVal58) c = c := by
        intro c hc
        exact lut_alpha c (hmem c hc).1 (hmem c hc).2
      rw [List.map_congr_left hcg]
      simp
    · refine takeWhile_length_eq _ enc zb (by omega) (fun i hi => ?_) (fun hlt => ?_)
      · rw [h49 i hi]
        rfl
      · have := hnext hlt
        rw [beq_eq_false_iff_ne]
        exact this

theorem updAccounts_isErr : ∀ (accs : List AccountParam) (r : ByteReader),
    isErr (updAccounts r accs) = true := by
  intro accs
  induction accs with
  | nil => intro r; rfl
  | cons a rest ih =>
    intro r
    unfold updAccounts
    cases rdByte r with
    | none => rfl
    | some v =>
      obtain ⟨idx, r1⟩ := v
      show isErr (if (!a.isDuplicate && idx != 255) || a.duplicateIndex % 256 != idx then
          Except.error "account order changed"
        else if idx != 255 then updAccounts r1 rest
        else
          let s1 := rdBool r1
          let s2 := rdBool s1.2
          let s3 := rdBool s2.2
          let r5 := rdSeek s3.2 4
          let s4 := rdRead r5 32
          let s5 := rdRead s4.2 32
          let s6 := rdUint64 s5.2
          let oldLen := a.data.length
          let s7 := rdUint64 s6.2
          let newLen := s7.1.getD 0
          if newLen < oldLen then Except.error "attempted to shrink account"
          else if oldLen + 10240 < newLen then
            Except.error "attempted to grow account too much"
          else
            let s8 := rdRead s7.2 newLen
            let r11 := rdSeek s8.2 ((a.padding : Int) - ((newLen : Int) - (oldLen : Int)))
            let s9 := rdUint64 r11
            updAccounts s9.2 rest) = true
      split
      · rfl
      · split
        · exact ih r1
        · dsimp only
          split
          · rfl
          · split
            · rfl
            · exact ih _

theorem updAccounts_never_ok (accs : List AccountParam) (r : ByteReader) :
    ∃ e, updAccounts r accs = Except.error e := by
  have h := updAccounts_isErr accs r
  cases hx : updAccounts r accs with
  | error e => exact ⟨e, rfl⟩
  | ok v =>
    rw [hx] at h
    exact absurd h (by simp [isErr])

theorem updateParams_errors (p : SealevelParams) (buf : List Nat) :
    ∃ e, updateParams p buf = Except.error e := by
  obtain ⟨e, he⟩ := updAccounts_never_ok p.accounts ⟨buf, 0⟩
  exact ⟨e, by unfold updateParams; rw [he]⟩

theorem getD_append_left (l1 l2 : List Nat) (i : Nat) (hi : i < l1.length) :
    (l1 ++ l2).getD i 0 = l1.getD i 0 := by
  rw [List.getD_eq_getElem?_getD, List.getD_eq_getElem?_getD, List.getElem?_append]
  simp [hi]

theorem serializeParams_getD0 (p : SealevelParams) :
    (serializeParams p).1.getD 0 0 = p.accounts.length % 256 := by
  show (putUint64LE p.accounts.length ++ (serAccounts 8 p.accounts).1
      ++ putUint64LE p.data.length ++ p.data ++ p.programID).getD 0 0 = _
  rw [List.append_assoc, List.append_assoc, List.append_assoc,
    getD_append_left _ _ 0 (by simp [putUint64LE]),
    show putUint64LE p.accounts.length
      = (List.range 8).map (fun i => p.accounts.length / 256 ^ i % 256) from rfl,
    range_map_getD_lt _ 8 0 (by norm_num)]
  norm_num

theorem serializeParams_len8 (p : SealevelParams) : 8 ≤ (serializeParams p).1.length := by
  show 8 ≤ (putUint64LE p.accounts.length ++ (serAccounts 8 p.accounts).1
      ++ putUint64LE p.data.length ++ p.data ++ p.programID).length
  rw [List.length_append, List.length_append, List.length_append, List.length_append]
  have h8 : (putUint64LE p.accounts.length).length = 8 := by simp [putUint64LE]
  omega

theorem serAccounts_snd_head (off : Nat) (a : AccountParam) (rest : List AccountParam) :
    ∃ a2 rest2, (serAccounts off (a :: rest)).2 = a2 :: rest2
      ∧ a2.isDuplicate = a.isDuplicate ∧ a2.duplicateIndex = a.duplicateIndex := by
  unfold serAccounts
  by_cases h : a.isDuplicate
  · rw [if_pos h]
    exact ⟨a, _, rfl, rfl, rfl⟩
  · rw [if_neg h]
    exact ⟨_, _, rfl, rfl, rfl⟩

theorem serThenUpdate_head_primary (a : AccountParam) (rest : List AccountParam)
    (dat pid : List Nat) (hdup : a.isDuplicate = false)
    (hlen : (a :: rest).length % 256 ≠ 255) :
    serThenUpdate ⟨a :: rest, dat, pid⟩ = Except.error "account order changed" := by
  obtain ⟨a2, rest2, hs, hdup2, hidx2⟩ := serAccounts_snd_head 8 a rest
  have hacc : (serializeParams ⟨a :: rest, dat, pid⟩).2.accounts = a2 :: rest2 := hs
  have hblen : 0 < (serializeParams ⟨a :: rest, dat, pid⟩).1.length := by
    have := serializeParams_len8 ⟨a :: rest, dat, pid⟩
    omega
  have hbyte : rdByte ⟨(serializeParams ⟨a :: rest, dat, pid⟩).1, 0⟩
      = some ((a :: rest).length % 256, ⟨(serializeParams ⟨a :: rest, dat, pid⟩).1, 1⟩) := by
    unfold rdByte
    rw [if_pos hblen, serializeParams_getD0]
  have hupd : updAccounts ⟨(serializeParams ⟨a :: rest, dat, pid⟩).1, 0⟩ (a2 :: rest2)
      = Except.error "account order changed" := by
    have h1 : (((a :: rest).length % 256 : Nat) != 255) = true := by
      simp only [bne_iff_ne, ne_eq]
      exact hlen
    have hcond : ((!a2.isDuplicate && (((a :: rest).length % 256 : Nat) != 255))
        || (a2.duplicateIndex % 256 != (a :: rest).length % 256)) = true := by
      rw [hdup2, hdup, h1]
      rfl
    unfold updAccounts
    rw [hbyte]
    dsimp only
    rw [if_pos hcond]
  unfold serThenUpdate updateParams
  rw [hacc, hupd]

/-! ## The claims -/
/-- C1: for every 32-byte value, `Decode32` accepts the output of
`Encode32` and returns exactly the input bytes; likewise for the
64-byte codec. -/
theorem c1_roundtrip :
    (∀ inb : List Nat, inb.length = 32 → (∀ x ∈ inb, x < 256) →
      decode32 (encode32 inb) = some (some inb))
    ∧ (∀ inb : List Nat, inb.length = 64 → (∀ x ∈ inb, x < 256) →
      decode64 (encode64 inb) = some (some inb)) :=
  ⟨roundtrip32, roundtrip64⟩

theorem c1_roundtrip_witness :
    decode32 (encode32 (List.replicate 32 255)) = some (some (List.replicate 32 255))
    ∧ decode64 (encode64 (List.replicate 64 255)) = some (some (List.replicate 64 255)) :=
  ⟨c1_roundtrip.1 _ (by decide) (by decide), c1_roundtrip.2 _ (by decide) (by decide)⟩

/-- C2: `Update` applied to `Serialize`'s own output never succeeds for
any block — the account loop of the Go code can only exit through a
`return`, and the exit it reaches reports an error, so the claimed
round-trip reproduction is impossible. -/
theorem c2_roundtrip_never_succeeds (p : SealevelParams) :
    ∃ e, serThenUpdate p = Except.error e :=
  updateParams_errors (serializeParams p).2 (serializeParams p).1

/-- C3: the wire bytes actually emitted for a one-duplicate block and a
one-primary block: `bytes.Buffer.Grow` writes nothing, so the 7 reserved
bytes of a duplicate record, the 4 reserved bytes and the padding region
of a primary record are all absent (49 and 140 bytes instead of the
documented 56 and more-than-10240). -/
theorem c3_wire_layout :
    (serializeParams ⟨[dupAcc], [], zeros32⟩).1
        = [1, 0, 0, 0, 0, 0, 0, 0] ++ [0] ++ [0, 0, 0, 0, 0, 0, 0, 0] ++ zeros32
    ∧ (serializeParams ⟨[dupAcc], [], zeros32⟩).1.length = 49
    ∧ (serializeParams ⟨[badPrim], [], zeros32⟩).1.length = 140 :=
  ⟨by decide, by decide, by decide⟩

/-- C4: a character below `'1'` (such as `'0'` = 48) makes the decoders
fault with a negative slice index (`none`) instead of returning false:
only the upper side of the lookup index is clamped.  A character above
the table span (such as 123) is clamped and rejected gracefully. -/
theorem c4_low_chars_fault :
    decode32 (48 :: List.replicate 31 49) = none
    ∧ decode64 (48 :: List.replicate 63 49) = none
    ∧ decode32 (List.replicate 32 123) = some none :=
  ⟨by decide, by decide, by decide⟩

/-- C5: the actual test vectors of the code: the all-zero 32-byte value
encodes to 32 `'1'` characters (not 34), the zero-except-last-byte-1
value to 31 `'1'`s and `"2"` (not 33 and `"2"`), and the all-zero
64-byte value to 64 `'1'`s (not 68). -/
theorem c5_test_vectors :
    encode32 (List.replicate 32 0) = List.replicate 32 49
    ∧ encode32 (List.replicate 31 0 ++ [1]) = List.replicate 31 49 ++ [50]
    ∧ encode64 (List.replicate 64 0) = List.replicate 64 49 :=
  ⟨by decide, by decide, by decide⟩

/-- C5, the spec's numbers refuted: the all-zero values do not encode to
34 (respectively 33 + 1, 68) characters. -/
theorem c5_counterexample :
    encode32 (List.replicate 32 0) ≠ List.replicate 34 49
    ∧ encode32 (List.replicate 31 0 ++ [1]) ≠ List.replicate 33 49 ++ [50]
    ∧ encode64 (List.replicate 64 0) ≠ List.replicate 68 49 :=
  ⟨by decide, by decide, by decide⟩

/-- C6: every accepted text is the canonical encoding of its value: the
leading-`'1'` run of the text has exactly the length of the leading-zero
run of the output bytes, re-encoding the output reproduces the text, and
no two distinct accepted texts decode to the same value. -/
theorem c6_canonical :
    (∀ enc out : List Nat, decode32 enc = some (some out) →
      (enc.takeWhile fun c => c == 49).length = lzCount out ∧ encode32 out = enc)
    ∧ (∀ enc out : List Nat, decode64 enc = some (some out) →
      (enc.takeWhile fun c => c == 49).length = lzCount out ∧ encode64 out = enc)
    ∧ (∀ e1 e2 out : List Nat, decode32 e1 = some (some out) → decode32 e2 = some (some out) →
      e1 = e2)
    ∧ (∀ e1 e2 out : List Nat, decode64 e1 = some (some out) → decode64 e2 = some (some out) →
      e1 = e2) := by
  refine ⟨fun enc out h => ⟨(decode32_sound enc out h).2, (decode32_sound enc out h).1⟩,
    fun enc out h => ⟨(decode64_sound enc out h).2, (decode64_sound enc out h).1⟩,
    fun e1 e2 out h1 h2 => ?_, fun e1 e2 out h1 h2 => ?_⟩
  · rw [← (decode32_sound e1 out h1).1, ← (decode32_sound e2 out h2).1]
  · rw [← (decode64_sound e1 out h1).1, ← (decode64_sound e2 out h2).1]

theorem c6_canonical_witness :
    ((List.replicate 32 49).takeWhile fun c => c == 49).length = lzCount (List.replicate 32 0)
    ∧ encode32 (List.replicate 32 0) = List.replicate 32 49 :=
  c6_canonical.1 (List.replicate 32 49) (List.replicate 32 0) (by decide)

/-- C7: an accepted-alphabet text of valid length whose value does not
fit in the output bytes is rejected (the top accumulator exceeds 32 bits
after normalization); in particular the all-`'z'` strings of maximal
length are rejected. -/
theorem c7_overflow :
    (∀ enc : List Nat, 32 ≤ enc.length → enc.length ≤ 44 → validateChars enc = some true →
      2 ^ 256 ≤ ofDigitsBE 58 (enc.map lutVal58) → decode32 enc = some none)
    ∧ (∀ enc : List Nat, 64 ≤ enc.length → enc.length ≤ 88 → validateChars enc = some true →
      2 ^ 512 ≤ ofDigitsBE 58 (enc.map lutVal58) → decode64 enc = some none)
    ∧ decode32 (List.replicate 44 122) = some none
    ∧ decode64 (List.replicate 88 122) = some none := by
  refine ⟨fun enc h1 h2 h3 h4 => ?_, fun enc h1 h2 h3 h4 => ?_, by decide, by decide⟩
  · rw [decode32_char enc h1 h2 h3, if_pos h4]
  · rw [decode64_char enc h1 h2 h3, if_pos h4]

theorem c7_overflow_witness :
    decode32 (List.replicate 44 121) = some none :=
  c7_overflow.1 (List.replicate 44 121) (by decide) (by decide) (by decide) (by decide)

/-- C8: the account loop of `Update` returns the account-count error on
every source once the accounts are exhausted — even when the source is
`Serialize`'s own output for the very same block, so "same count implies
success" fails already for the empty block and for a single-duplicate
block whose count byte matches. -/
theorem c8_account_count :
    (∀ buf : List Nat, updAccounts ⟨buf, 0⟩ [] = Except.error "number of accounts changed")
    ∧ serThenUpdate ⟨[], [], zeros32⟩ = Except.error "number of accounts changed"
    ∧ serThenUpdate ⟨[dupOne], [], zeros32⟩ = Except.error "number of accounts changed" :=
  ⟨fun _ => rfl, by rfl, by rfl⟩

/-- C9: the encoders' output lengths lie in [32, 44] and [64, 88], and
the skip subtraction never underflows: the raw leading-zero count is at
least the input leading-zero count. -/
theorem c9_length_bounds :
    (∀ inb : List Nat, inb.length = 32 → (∀ x ∈ inb, x < 256) →
      32 ≤ (encode32 inb).length ∧ (encode32 inb).length ≤ 44
        ∧ lzCount inb ≤ lzCount (raw58of32 inb))
    ∧ (∀ inb : List Nat, inb.length = 64 → (∀ x ∈ inb, x < 256) →
      64 ≤ (encode64 inb).length ∧ (encode64 inb).length ≤ 88
        ∧ lzCount inb ≤ lzCount (raw58of64 inb)) :=
  ⟨encode32_bounds, encode64_bounds⟩

theorem c9_length_bounds_witness :
    32 ≤ (encode32 (List.replicate 32 7)).length
    ∧ (encode32 (List.replicate 32 7)).length ≤ 44
    ∧ lzCount (List.replicate 32 7) ≤ lzCount (raw58of32 (List.replicate 32 7)) :=
  c9_length_bounds.1 (List.replicate 32 7) (by decide) (by decide)

/-- C10: when the FIRST account of a block is primary and the block's
count byte is not 0xFF, `Update` on `Serialize`'s output does fail with
the account-order error (it compares the account's `DuplicateIndex` with
the first count byte, which `Serialize` wrote, not a marker); but for a
block merely CONTAINING such a primary account later the loop can fail
earlier with a different error, as the 255-account block shows. -/
theorem c10_duplicate_index_check :
    ∀ (a : AccountParam) (rest : List AccountParam) (dat pid : List Nat),
      a.isDuplicate = false → (a :: rest).length % 256 ≠ 255 →
      serThenUpdate ⟨a :: rest, dat, pid⟩ = Except.error "account order changed" :=
  serThenUpdate_head_primary

/-- C10, the claim's universal form refuted: the 255-account block holds
a primary account with `DuplicateIndex ≠ 0xFF` (in second position), yet
`Update` on `Serialize`'s output fails with the grow error, not the
account-order error. -/
theorem c10_counterexample :
    serThenUpdate monster = Except.error "attempted to grow account too much"
    ∧ (monster.accounts.any fun x => !x.isDuplicate && x.duplicateIndex % 256 != 255)
      = true :=
  ⟨by rfl, by rfl⟩

theorem c10_duplicate_index_check_witness :
    serThenUpdate ⟨[badPrim], [], zeros32⟩ = Except.error "account order changed" :=
  c10_duplicate_index_check badPrim [] [] zeros32 (by rfl) (by decide)
